import Mathlib

/-!
# MPI Bellman-Ford (`src/mpi-bf.cpp`): shallow embedding and verified properties

The C++ function `bellman_ford` is executed by `p` MPI ranks at once.  The embedding
simulates all ranks together: the per-rank array `my_dist` becomes a map from rank to
vector, and every collective (`MPI_Allreduce` with `MPI_LOR` or `MPI_MIN`) becomes a pure
function of the contributions of ranks `0 .. p-1` whose result every rank receives.

Conventions of the embedding:
* C `int` values are integers (`Int`, or `Nat` for the non-negative sizes `n`, `p` and for
  indices); the two sums `my_dist[u] + weight` of lines 137-138 and 158 are 32-bit sums
  and are modelled by `add32`, which wraps around at `2^31`;
* the weight matrix is the flat row-major buffer `mat`, read as `mat (u * n + v)`;
* a distance array is the map `Nat → Int` from index to value; only indices below `n`
  belong to the array;
* the source requires `p ≥ 1` (it divides by `p` and writes `load[0]`).
-/

namespace MpiBf

/-! ## Definitions taken from the source -/

/-- The sentinel of line 20: `#define INF 1000000`. -/
def INF : Int := 1000000

/-- The least value of a 32-bit `int`. -/
def INT_MIN : Int := -2147483648

/-- A value brought back into the range of a 32-bit `int`, `[-2^31, 2^31)`, by wrapping. -/
def wrap32 (x : Int) : Int := (x + 2147483648) % 4294967296 - 2147483648

/-- The sum of two `int` values as the machine forms it: the exact sum when it fits in
32 bits, and otherwise the two's-complement wrap-around of the compiled program (the C++
standard leaves signed overflow undefined). -/
def add32 (a b : Int) : Int := wrap32 (a + b)

/-- A distance array, as a map from index to value. -/
abbrev Vec := Nat → Int

/-- Lines 99-103: `q = n / p`, `r = n % p`, `load[0] = q` and, for `1 ≤ i < p`,
`load[i] = q + ((i <= r) ? 1 : 0)`. -/
def load (n p : Nat) (i : Nat) : Nat :=
  if i = 0 then n / p else n / p + (if i ≤ n % p then 1 else 0)

/-- Lines 104-106: `begin[0] = 0` and `begin[i] = begin[i - 1] + load[i - 1]`. -/
def begin (n p : Nat) : Nat → Nat
  | 0 => 0
  | i + 1 => begin n p i + load n p i

/-- Lines 135-142, the body of the inner loop for one pair `(u, v)`: read the weight, and
if it is below `INF` and the 32-bit sum `my_dist[u] + weight` is below `my_dist[v]`, store
the sum in `my_dist[v]` and raise `my_has_change`.  The state is the pair
`(my_dist, my_has_change)`; `my_dist[u]` is read from the current array (in place). -/
def relax_edge (n : Nat) (mat : Nat → Int) (u v : Nat) (s : Vec × Bool) : Vec × Bool :=
  let weight := mat (u * n + v)
  if weight < INF then
    if add32 (s.1 u) weight < s.1 v then (Function.update s.1 v (add32 (s.1 u) weight), true)
    else s
  else s

/-- Lines 131-143, the body of the outer loop for one source `u`: skip `u` when
`my_dist[u] == INF`, otherwise run `v` over `my_begin .. my_end - 1`. -/
def relax_row (n : Nat) (mat : Nat → Int) (my_begin my_end u : Nat) (s : Vec × Bool) :
    Vec × Bool :=
  if s.1 u = INF then s
  else (List.range' my_begin (my_end - my_begin)).foldl (fun s v => relax_edge n mat u v s) s

/-- Lines 128-144, one local relaxation pass of a rank owning `[my_begin, my_end)`:
`my_has_change = false`, then `u` runs over `0 .. n-1`. -/
def relax_pass (n : Nat) (mat : Nat → Int) (my_begin my_end : Nat) (d : Vec) : Vec × Bool :=
  (List.range n).foldl (fun s u => relax_row n mat my_begin my_end u s) (d, false)

/-- Lines 154-165, the local part of the negative-cycle check: the flag is raised at the
first pair `(u, v)`, `v` owned, with `weight < INF && my_dist[u] + weight < my_dist[v]` (a
32-bit sum), and both loops are left at once; `my_dist` is only read. -/
def detect_pass (n : Nat) (mat : Nat → Int) (my_begin my_end : Nat) (d : Vec) : Bool :=
  (List.range n).any fun u =>
    (List.range' my_begin (my_end - my_begin)).any fun v =>
      decide (mat (u * n + v) < INF ∧ add32 (d u) (mat (u * n + v)) < d v)

/-- The collective `MPI_Allreduce(..., MPI_C_BOOL, MPI_LOR, comm)` over ranks `0 .. p-1`. -/
def allreduce_lor (p : Nat) (flag : Nat → Bool) : Bool :=
  (List.range p).any flag

/-- The collective `MPI_Allreduce(MPI_IN_PLACE, my_dist, n, MPI_INT, MPI_MIN, comm)`:
element-wise minimum of the arrays of ranks `0 .. p-1`. -/
def allreduce_min (p : Nat) (ds : Nat → Vec) : Vec :=
  fun v => (List.range p).foldl (fun acc r => min acc (ds r v)) (ds 0 v)

/-- The variables of the round loop, for all ranks together: `my_dist` per rank, and
`my_iter_num` and `my_has_change`, which have the same value on every rank. -/
structure LoopState where
  /-- The array `my_dist` of each rank. -/
  my_dist : Nat → Vec
  /-- The counter `my_iter_num`. -/
  my_iter_num : Nat
  /-- The flag `my_has_change` as left by the last `MPI_LOR` reduction. -/
  my_has_change : Bool

/-- Lines 119-122: every entry is `INF`, then `my_dist[0] = 0`. -/
def init_dist : Vec := fun i => if i = 0 then 0 else INF

/-- The state in front of the round loop (line 126): every rank holds `init_dist`, and
`my_iter_num = 0`. -/
def init_state : LoopState :=
  { my_dist := fun _ => init_dist, my_iter_num := 0, my_has_change := false }

/-- The local pass of rank `r` in one round, over its range
`[begin[r], begin[r] + load[r])` (lines 108-110 and 128-144). -/
def local_pass (n p : Nat) (mat : Nat → Int) (s : LoopState) (r : Nat) : Vec × Bool :=
  relax_pass n mat (begin n p r) (begin n p r + load n p r) (s.my_dist r)

/-- Line 145: the `MPI_LOR` reduction of the local flags of one round. -/
def combined_change (n p : Nat) (mat : Nat → Int) (s : LoopState) : Bool :=
  allreduce_lor p fun r => (local_pass n p mat s r).2

/-- The state after a round that leaves the loop at line 147 (`break`): every rank keeps
the array of its local pass, and no merge takes place. -/
def after_break (n p : Nat) (mat : Nat → Int) (s : LoopState) : LoopState :=
  { my_dist := fun r => (local_pass n p mat s r).1
    my_iter_num := s.my_iter_num + 1
    my_has_change := false }

/-- The state after a round that reaches line 148: every rank holds the `MPI_MIN` merge of
the arrays of all local passes. -/
def after_merge (n p : Nat) (mat : Nat → Int) (s : LoopState) : LoopState :=
  { my_dist := fun _ => allreduce_min p fun r => (local_pass n p mat s r).1
    my_iter_num := s.my_iter_num + 1
    my_has_change := true }

/-- Lines 127-151, the round loop; the first argument is the number of iterations that
`for (int i = 0; i < n - 1; i++)` still allows. -/
def round_loop (n p : Nat) (mat : Nat → Int) : Nat → LoopState → LoopState
  | 0, s => s
  | k + 1, s =>
    if combined_change n p mat s then round_loop n p mat k (after_merge n p mat s)
    else after_break n p mat s

/-- The state of the run after `k` rounds that each ended with the merge of line 148. -/
def state_at (n p : Nat) (mat : Nat → Int) : Nat → LoopState
  | 0 => init_state
  | k + 1 => after_merge n p mat (state_at n p mat k)

/-- The function `bellman_ford` (lines 94-177) for `p` ranks: the round loop runs at most
`n - 1` times; the detection pass runs when `my_iter_num == n - 1` and its `MPI_LOR` result
is stored in `has_negative_cycle`, which is `false` otherwise (line 186); rank 0 copies
its `n` entries to `dist` (lines 169-170). -/
def bellman_ford (p n : Nat) (mat : Nat → Int) : Bool × List Int :=
  let s := round_loop n p mat (n - 1) init_state
  let has_negative_cycle :=
    if (s.my_iter_num : Int) = (n : Int) - 1 then
      allreduce_lor p fun r =>
        detect_pass n mat (begin n p r) (begin n p r + load n p r) (s.my_dist r)
    else false
  (has_negative_cycle, (List.range n).map (s.my_dist 0))

/-- The condition of line 153, `my_iter_num == n - 1`, evaluated after the round loop: it
decides whether the detection pass of lines 154-166 is executed. -/
def detection_executed (p n : Nat) (mat : Nat → Int) : Bool :=
  decide (((round_loop n p mat (n - 1) init_state).my_iter_num : Int) = (n : Int) - 1)

/-- What `utils::print_result` writes to `output.txt`: the distances, one per line, or the
line `FOUND NEGATIVE CYCLE!`. -/
inductive Printed where
  | distances (lines : List Int)
  | found_negative_cycle
  deriving DecidableEq

/-- The function `utils::print_result` (lines 56-70): without a negative cycle, for each
`i < N` a value `dist[i] > INF` is replaced by `INF` and the value is written. -/
def print_result (N : Nat) (has_negative_cycle : Bool) (dist : List Int) : Printed :=
  if !has_negative_cycle then
    Printed.distances ((List.range N).map fun i =>
      if dist.getD i 0 > INF then INF else dist.getD i 0)
  else Printed.found_negative_cycle

/-! ## The run with the `INF` skip removed -/

/-- The body of the outer loop for one source `u` without line 131-132: `v` runs over the
owned range whatever `my_dist[u]` is. -/
def relax_row_noskip (n : Nat) (mat : Nat → Int) (my_begin my_end u : Nat) (s : Vec × Bool) :
    Vec × Bool :=
  (List.range' my_begin (my_end - my_begin)).foldl (fun s v => relax_edge n mat u v s) s

/-- One local relaxation pass without the skip of lines 131-132. -/
def relax_pass_noskip (n : Nat) (mat : Nat → Int) (my_begin my_end : Nat) (d : Vec) :
    Vec × Bool :=
  (List.range n).foldl (fun s u => relax_row_noskip n mat my_begin my_end u s) (d, false)

/-- The local pass of rank `r` in one round, without the skip. -/
def local_pass_noskip (n p : Nat) (mat : Nat → Int) (s : LoopState) (r : Nat) : Vec × Bool :=
  relax_pass_noskip n mat (begin n p r) (begin n p r + load n p r) (s.my_dist r)

/-- The `MPI_LOR` reduction of the local flags of one round, without the skip. -/
def combined_change_noskip (n p : Nat) (mat : Nat → Int) (s : LoopState) : Bool :=
  allreduce_lor p fun r => (local_pass_noskip n p mat s r).2

/-- The state after a round that leaves the loop at the `break`, without the skip. -/
def after_break_noskip (n p : Nat) (mat : Nat → Int) (s : LoopState) : LoopState :=
  { my_dist := fun r => (local_pass_noskip n p mat s r).1
    my_iter_num := s.my_iter_num + 1
    my_has_change := false }

/-- The state after a round that reaches the `MPI_MIN` merge, without the skip. -/
def after_merge_noskip (n p : Nat) (mat : Nat → Int) (s : LoopState) : LoopState :=
  { my_dist := fun _ => allreduce_min p fun r => (local_pass_noskip n p mat s r).1
    my_iter_num := s.my_iter_num + 1
    my_has_change := true }

/-- The round loop without the skip. -/
def round_loop_noskip (n p : Nat) (mat : Nat → Int) : Nat → LoopState → LoopState
  | 0, s => s
  | k + 1, s =>
    if combined_change_noskip n p mat s then
      round_loop_noskip n p mat k (after_merge_noskip n p mat s)
    else after_break_noskip n p mat s

/-- The state after `k` merged rounds of the run without the skip. -/
def state_at_noskip (n p : Nat) (mat : Nat → Int) : Nat → LoopState
  | 0 => init_state
  | k + 1 => after_merge_noskip n p mat (state_at_noskip n p mat k)

/-- The function `bellman_ford` with lines 131-132 removed and nothing else changed. -/
def bellman_ford_noskip (p n : Nat) (mat : Nat → Int) : Bool × List Int :=
  let s := round_loop_noskip n p mat (n - 1) init_state
  let has_negative_cycle :=
    if (s.my_iter_num : Int) = (n : Int) - 1 then
      allreduce_lor p fun r =>
        detect_pass n mat (begin n p r) (begin n p r + load n p r) (s.my_dist r)
    else false
  (has_negative_cycle, (List.range n).map (s.my_dist 0))

/-! ## The single-worker reference -/

/-- The better of the distance `best` found so far and the distance through a neighbour
whose distance is `du`, along an edge of weight `w`; `none` is the infinite distance, and
sums are exact. -/
def ref_relax (best du : Option Int) (w : Int) : Option Int :=
  match du with
  | none => best
  | some a =>
    match best with
    | none => some (a + w)
    | some b => if a + w < b then some (a + w) else some b

/-- One round of the reference: the new distance of `v` is the least of its old distance
and the old distance of `u` plus the weight of the edge `u → v`, over all `u` in `[0, n)`
with an edge to `v` (a matrix entry below `INF`). -/
def ref_step (n : Nat) (mat : Nat → Int) (d : Nat → Option Int) : Nat → Option Int :=
  fun v => (List.range n).foldl
    (fun best u => if mat (u * n + v) < INF then ref_relax best (d u) (mat (u * n + v)) else best)
    (d v)

/-- The distances of the reference after `k` rounds: at the start vertex 0 has distance 0
and every other vertex the infinite distance. -/
def ref_dist (n : Nat) (mat : Nat → Int) : Nat → Nat → Option Int
  | 0 => fun v => if v = 0 then some 0 else none
  | k + 1 => ref_step n mat (ref_dist n mat k)

/-- The single-worker reference Bellman-Ford from source 0: `n - 1` rounds over all edges,
in exact integers and with a true infinity; a vertex whose distance is still infinite is
reported as the sentinel `INF`. -/
def reference_bellman_ford (n : Nat) (mat : Nat → Int) : List Int :=
  (List.range n).map fun v => (ref_dist n mat (n - 1) v).getD INF

/-! ## The pass that reads the snapshot -/

/-- One relaxation of the snapshot pass for the pair `(u, v)`: as `relax_edge`, but the
source distance is read from the snapshot `snap` taken before the pass. -/
def snapshot_relax (n : Nat) (mat : Nat → Int) (snap : Vec) (u v : Nat) (s : Vec × Bool) :
    Vec × Bool :=
  let weight := mat (u * n + v)
  if weight < INF ∧ add32 (snap u) weight < s.1 v then
    (Function.update s.1 v (add32 (snap u) weight), true)
  else s

/-- One source `u` of the snapshot pass: a source whose snapshot distance is less than
`INF` relaxes the owned destinations, reading `snap u`. -/
def snapshot_row (n : Nat) (mat : Nat → Int) (my_begin my_end : Nat) (snap : Vec) (u : Nat)
    (s : Vec × Bool) : Vec × Bool :=
  if snap u < INF then
    (List.range' my_begin (my_end - my_begin)).foldl
      (fun s v => snapshot_relax n mat snap u v s) s
  else s

/-- The pass over the owned range `[my_begin, my_end)` that reads all source distances from
the snapshot taken before the pass, following the words of the specification. -/
def snapshot_pass (n : Nat) (mat : Nat → Int) (my_begin my_end : Nat) (d : Vec) : Vec × Bool :=
  (List.range n).foldl (fun s u => snapshot_row n mat my_begin my_end d u s) (d, false)

/-! ## Walks and cycles of the weighted graph -/

/-- The relation `Walk n mat a b W`: the graph has a walk from `a` to `b` of total weight
`W`, along edges `u → v` with `mat (u * n + v) < INF` between vertices below `n`. -/
inductive Walk (n : Nat) (mat : Nat → Int) : Nat → Nat → Int → Prop
  | nil (a : Nat) : a < n → Walk n mat a a 0
  | snoc {a u v : Nat} {W : Int} : Walk n mat a u W → v < n → mat (u * n + v) < INF →
      Walk n mat a v (W + mat (u * n + v))

/-- A negative-weight cycle reachable from vertex 0: a vertex `c` reached by a walk from 0
that has a closed walk of negative total weight through it.  (A closed walk of negative
weight always contains a simple cycle of negative weight, and conversely.) -/
def NegCycleReachable (n : Nat) (mat : Nat → Int) : Prop :=
  ∃ c W C, Walk n mat 0 c W ∧ Walk n mat c c C ∧ C < 0

/-- The relation `SrcWalk n mat l W`: `l` lists, last vertex first, the vertices of a walk
that starts at vertex 0, has total weight `W`, and whose running weight is below `INF`
after every edge. -/
inductive SrcWalk (n : Nat) (mat : Nat → Int) : List Nat → Int → Prop
  | src : 0 < n → SrcWalk n mat [0] 0
  | step {u v : Nat} {l : List Nat} {W : Int} : SrcWalk n mat (u :: l) W → v < n →
      mat (u * n + v) < INF → W + mat (u * n + v) < INF →
      SrcWalk n mat (v :: u :: l) (W + mat (u * n + v))

/-- Every entry of the array is at most `INF`. -/
def AtMostINF (n : Nat) (d : Vec) : Prop := ∀ x, x < n → d x ≤ INF

/-- Every entry below `INF` is the weight of a walk from vertex 0 to that vertex. -/
def Sound (n : Nat) (mat : Nat → Int) (d : Vec) : Prop :=
  ∀ v, v < n → d v < INF → ∃ l, SrcWalk n mat (v :: l) (d v)

/-- No entry exceeds the weight of a walk from vertex 0 with at most `k` edges. -/
def Bound (n : Nat) (mat : Nat → Int) (k : Nat) (d : Vec) : Prop :=
  ∀ v l W, SrcWalk n mat (v :: l) W → l.length ≤ k → d v ≤ W

/-- No edge out of a vertex with distance below `INF` can still be relaxed. -/
def Fix (n : Nat) (mat : Nat → Int) (d : Vec) : Prop :=
  ∀ u v, u < n → v < n → d u < INF → mat (u * n + v) < INF → d v ≤ d u + mat (u * n + v)

/-- What one round achieves, from the common array `d` to the array `e`: entries do not
grow, and every edge out of a vertex below `INF` has been relaxed. -/
def GoodStep (n : Nat) (mat : Nat → Int) (d e : Vec) : Prop :=
  (∀ x, e x ≤ d x) ∧
  (∀ u v, u < n → v < n → d u < INF → mat (u * n + v) < INF → e v ≤ d u + mat (u * n + v))

/-- Every entry below `INF` belongs to a vertex that a walk from vertex 0 reaches. -/
def Reached (n : Nat) (mat : Nat → Int) (d : Vec) : Prop :=
  ∀ v, v < n → d v < INF → ∃ W, Walk n mat 0 v W

/-- A family `Q j` of properties of an array, `j` counting the relaxations still to come:
every member bounds the entries by `INF`, `Q (j + 1)` gives `Q j`, a store made by
`relax_edge` from a source below `INF` at a destination below `m` leads from `Q (j + 1)` to
`Q j`, and an array that takes each entry from one of several arrays with `Q j` has
`Q j`. -/
structure StepFamily (n m : Nat) (mat : Nat → Int) (Q : Nat → Vec → Prop) : Prop where
  /-- Every entry is at most `INF`. -/
  atMost : ∀ j c, Q j c → AtMostINF n c
  /-- The count may be lowered. -/
  weaken : ∀ j c, Q (j + 1) c → Q j c
  /-- A store of `relax_edge` uses up one count. -/
  store : ∀ j c u v, Q (j + 1) c → u < n → v < m → c u < INF → mat (u * n + v) < INF →
    add32 (c u) (mat (u * n + v)) < c v →
    Q j (Function.update c v (add32 (c u) (mat (u * n + v))))
  /-- An array made of entries of arrays of the family is in the family. -/
  select : ∀ j (c : Vec) (cs : Nat → Vec) (p : Nat), (∀ r, r < p → Q j (cs r)) →
    (∀ x, ∃ r, r < p ∧ c x = cs r x) → Q j c

/-- In every array of the family with a count left, the 32-bit sum formed for an edge out
of a source below `INF` to a destination below `m` is the exact sum. -/
def ExactFamily (n m : Nat) (mat : Nat → Int) (Q : Nat → Vec → Prop) : Prop :=
  ∀ j c u v, Q (j + 1) c → u < n → v < m → c u < INF → mat (u * n + v) < INF →
    add32 (c u) (mat (u * n + v)) = c u + mat (u * n + v)

/-- The family of the arrays that are sound and bounded by `INF`. -/
def SoundQ (n : Nat) (mat : Nat → Int) : Nat → Vec → Prop :=
  fun _ c => AtMostINF n c ∧ Sound n mat c

/-- The family of the arrays that are bounded by `INF` and whose entries below `INF` are
reached from vertex 0. -/
def ReachedQ (n : Nat) (mat : Nat → Int) : Nat → Vec → Prop :=
  fun _ c => AtMostINF n c ∧ Reached n mat c

/-- The family of the arrays bounded by `INF` whose entries are at least
`INT_MIN + j * B`: with weights of at least `-B`, `j` more relaxations cannot overflow. -/
def LowQ (n : Nat) (B : Int) : Nat → Vec → Prop :=
  fun j c => AtMostINF n c ∧ ∀ x, x < n → INT_MIN + j * B ≤ c x

/-- The distance `o` of the reference is finite and at most `W`. -/
def OLe (o : Option Int) (W : Int) : Prop := ∃ x, o = some x ∧ x ≤ W

/-- The flat buffer of a matrix given as the list of its entries, row by row. -/
def matrix_of (l : List Int) : Nat → Int := fun i => l.getD i INF


/-- The matrix of scenario 2 of the specification: `n = 3`, edges `0 → 1` of weight 1,
`1 → 2` of weight 1 and `0 → 2` of weight 5. -/
def scenario2 : Nat → Int :=
  matrix_of [INF, 1, 5, INF, INF, 1, INF, INF, INF]

/-- A matrix with `n = 3` and no cycle at all: edges `0 → 1` of weight 999999 and `2 → 1`
of weight -2. -/
def no_cycle : Nat → Int :=
  matrix_of [INF, 999999, INF, INF, INF, INF, INF, -2, INF]

/-- A matrix with `n = 4`: edges `0 → 1` and `1 → 2` of weight 1, and the loop `3 → 3` of
weight -1 at a vertex that no walk from vertex 0 reaches. -/
def lone_loop : Nat → Int :=
  matrix_of [INF, 1, INF, INF, INF, INF, 1, INF, INF, INF, INF, INF, INF, INF, INF, -1]

/-- A matrix with `n = 3` whose only edge is `1 → 2` of weight -1, out of a vertex that no
walk from vertex 0 reaches. -/
def stray_edge : Nat → Int :=
  matrix_of [INF, INF, INF, INF, INF, -1, INF, INF, INF]

/-- The matrix with `n = 2` and no edge at all. -/
def no_edges : Nat → Int :=
  matrix_of [INF, INF, INF, INF]

/-- The array `[0, 999999, INF]` that every rank holds when the run on `no_cycle` leaves
its round loop. -/
def no_cycle_dist : Vec := fun i => [0, 999999, 1000000].getD i INF

/-- A matrix with `n = 4` and no cycle: the path `0 → 1 → 2 → 3` with weights 999999, 5 and
-10; vertex 3 has distance 999994, and the path passes 1000004 on its way. -/
def capped_path : Nat → Int :=
  matrix_of [INF, 999999, INF, INF, INF, INF, 5, INF, INF, INF, INF, -10, INF, INF, INF, INF]

/-- A matrix with `n = 4`: edges `1 → 2` of weight -2 and `2 → 3` of weight -2147483647. -/
def deep_edge : Nat → Int :=
  matrix_of [INF, INF, INF, INF, INF, INF, -2, INF, INF, INF, INF, -2147483647,
    INF, INF, INF, INF]

/-- The array `[0, 0, -1, INF]`. -/
def deep_dist : Vec := fun i => [0, 0, -1, 1000000].getD i INF

/-! ## The partition table -/

theorem begin_succ_eq (n p i : Nat) :
    begin n p (i + 1) = (i + 1) * (n / p) + min i (n % p) := by
  induction i with
  | zero => simp [begin, load]
  | succ k ih =>
    rw [begin, ih]
    simp only [load, Nat.succ_ne_zero, if_false]
    split_ifs with h
    · rw [min_eq_left (Nat.le_of_succ_le h), min_eq_left h]; ring
    · push_neg at h
      rw [min_eq_right (Nat.le_of_lt_succ h), min_eq_right (Nat.le_of_lt h)]; ring

theorem begin_top (n p : Nat) (hp : 1 ≤ p) : begin n p p = n := by
  obtain ⟨k, rfl⟩ : ∃ k, p = k + 1 := ⟨p - 1, by omega⟩
  rw [begin_succ_eq]
  have h1 : n % (k + 1) < k + 1 := Nat.mod_lt _ (by omega)
  rw [min_eq_right (by omega)]
  have := Nat.div_add_mod n (k + 1)
  linarith [Nat.mul_comm (k + 1) (n / (k + 1))]

theorem begin_mono (n p : Nat) {i j : Nat} (h : i ≤ j) : begin n p i ≤ begin n p j := by
  induction j with
  | zero => simp_all
  | succ k ih =>
    rcases Nat.eq_or_lt_of_le h with h1 | h1
    · rw [h1]
    · have := ih (by omega)
      simp only [begin]; omega

theorem sum_load_eq_begin (n p k : Nat) : (∑ i ∈ Finset.range k, load n p i) = begin n p k := by
  induction k with
  | zero => simp [begin]
  | succ k ih => rw [Finset.sum_range_succ, ih, begin]

theorem owner_exists (n p : Nat) (v k : Nat) (h : v < begin n p k) :
    ∃ i, i < k ∧ begin n p i ≤ v ∧ v < begin n p i + load n p i := by
  induction k with
  | zero => simp [begin] at h
  | succ k ih =>
    by_cases h1 : v < begin n p k
    · obtain ⟨i, hi, h2⟩ := ih h1
      exact ⟨i, by omega, h2⟩
    · exact ⟨k, by omega, by omega, by simpa [begin] using h⟩

theorem owner_unique (n p : Nat) {v i j : Nat}
    (hi : begin n p i ≤ v ∧ v < begin n p i + load n p i)
    (hj : begin n p j ≤ v ∧ v < begin n p j + load n p j) : i = j := by
  by_contra hne
  rcases Nat.lt_or_gt_of_ne hne with h | h
  · have := begin_mono n p (Nat.succ_le_of_lt h)
    simp only [begin] at this; omega
  · have := begin_mono n p (Nat.succ_le_of_lt h)
    simp only [begin] at this; omega

theorem range_end_le (n p r : Nat) (hp : 1 ≤ p) (hr : r < p) :
    begin n p r + load n p r ≤ n := by
  have := begin_mono n p (Nat.succ_le_of_lt hr)
  rw [begin_top n p hp] at this
  simpa [begin] using this

/-- C5: for `p ≥ 1` the table has `begin[0] = 0`, `begin[i] = begin[i-1] + load[i-1]`,
non-negative loads that sum to `n`, and every index below `n` lies in the range of exactly
one rank (the ranges are contiguous, disjoint and cover `[0, n)`). -/
theorem partition_table_covers (n p : Nat) (hp : 1 ≤ p) :
    begin n p 0 = 0 ∧
    (∀ i, 0 < i → i < p → begin n p i = begin n p (i - 1) + load n p (i - 1)) ∧
    (∀ i, i < p → (0 : Int) ≤ (load n p i : Int)) ∧
    (∑ i ∈ Finset.range p, load n p i) = n ∧
    (∀ v, v < n → ∃! i, i < p ∧ begin n p i ≤ v ∧ v < begin n p i + load n p i) := by
  refine ⟨rfl, ?_, fun i _ => Int.natCast_nonneg _, ?_, ?_⟩
  · intro i h0 _
    obtain ⟨k, rfl⟩ : ∃ k, i = k + 1 := ⟨i - 1, by omega⟩
    simp [begin]
  · rw [sum_load_eq_begin, begin_top n p hp]
  · intro v hv
    obtain ⟨i, hi, h1, h2⟩ := owner_exists n p v p (by rw [begin_top n p hp]; exact hv)
    exact ⟨i, ⟨hi, h1, h2⟩, fun j hj => owner_unique n p ⟨hj.2.1, hj.2.2⟩ ⟨h1, h2⟩⟩

theorem partition_table_covers_witness :
    begin 3 5 0 = 0 ∧
    (∀ i, 0 < i → i < 5 → begin 3 5 i = begin 3 5 (i - 1) + load 3 5 (i - 1)) ∧
    (∀ i, i < 5 → (0 : Int) ≤ (load 3 5 i : Int)) ∧
    (∑ i ∈ Finset.range 5, load 3 5 i) = 3 ∧
    (∀ v, v < 3 → ∃! i, i < 5 ∧ begin 3 5 i ≤ v ∧ v < begin 3 5 i + load 3 5 i) :=
  partition_table_covers 3 5 (by decide)

/-- C6 as stated fails: for `n = 3`, `p = 2` rank 0 receives `load[0] = 1`, not
`3 / 2 + 1 = 2`. -/
theorem load_formula_counterexample :
    load 3 2 0 ≠ 3 / 2 + (if 0 < 3 % 2 then 1 else 0) := by decide

/-- C6 amended: `load[i] = n / p + (1 if 1 ≤ i ≤ n mod p else 0)`; the extra vertices go to
ranks `1 .. n mod p`, and rank 0 always receives the quotient. -/
theorem load_formula (n p i : Nat) :
    load n p i = n / p + (if 1 ≤ i ∧ i ≤ n % p then 1 else 0) := by
  unfold load
  by_cases h0 : i = 0
  · simp [h0]
  · have : 1 ≤ i := by omega
    simp [h0, this]

/-! ## Folds -/

theorem foldl_inv {α β : Type} (P : β → Prop) (f : β → α → β) (l : List α) (s : β)
    (h0 : P s) (hstep : ∀ s a, a ∈ l → P s → P (f s a)) : P (l.foldl f s) := by
  induction l generalizing s with
  | nil => exact h0
  | cons a t ih =>
    exact ih (f s a) (hstep s a (List.mem_cons_self a t) h0)
      (fun s1 b hb hs1 => hstep s1 b (List.mem_cons_of_mem a hb) hs1)

theorem foldl_each {α β : Type} (P : β → Prop) (R : α → β → Prop) (f : β → α → β)
    (l : List α) (s : β) (h0 : P s) (hstep : ∀ s a, a ∈ l → P s → P (f s a))
    (hest : ∀ s a, a ∈ l → P s → R a (f s a))
    (hpres : ∀ s a b, a ∈ l → P s → R b s → R b (f s a)) :
    ∀ a, a ∈ l → R a (l.foldl f s) := by
  induction l generalizing s with
  | nil => intro a ha; simp at ha
  | cons a t ih =>
    intro x hx
    have hP : P (f s a) := hstep s a (List.mem_cons_self a t) h0
    rcases List.mem_cons.1 hx with rfl | hxt
    · have key : P (t.foldl f (f s x)) ∧ R x (t.foldl f (f s x)) :=
        foldl_inv (fun s1 => P s1 ∧ R x s1) f t (f s x)
          ⟨hP, hest s x (List.mem_cons_self x t) h0⟩
          (fun s1 b hb hs1 => ⟨hstep s1 b (List.mem_cons_of_mem x hb) hs1.1,
            hpres s1 b x (List.mem_cons_of_mem x hb) hs1.1 hs1.2⟩)
      exact key.2
    · exact ih (f s a) hP (fun s1 b hb => hstep s1 b (List.mem_cons_of_mem a hb))
        (fun s1 b hb => hest s1 b (List.mem_cons_of_mem a hb))
        (fun s1 b c hb => hpres s1 b c (List.mem_cons_of_mem a hb)) x hxt

theorem foldl_congr_inv {α β : Type} (P : β → Prop) (f g : β → α → β) (l : List α) (s : β)
    (h0 : P s) (h : ∀ s a, a ∈ l → P s → f s a = g s a ∧ P (g s a)) :
    l.foldl f s = l.foldl g s := by
  induction l generalizing s with
  | nil => rfl
  | cons a t ih =>
    have h1 := h s a (List.mem_cons_self a t) h0
    simp only [List.foldl_cons]
    rw [h1.1]
    exact ih (g s a) h1.2 (fun s1 b hb => h s1 b (List.mem_cons_of_mem a hb))

theorem foldl_count_inv {α β : Type} (P : Nat → β → Prop) (f : β → α → β) (l : List α) :
    ∀ s : β, P l.length s →
      (∀ j s a, a ∈ l → P (j + 1) s → P j (f s a)) → P 0 (l.foldl f s) := by
  induction l with
  | nil => intro s h0 _; exact h0
  | cons a t ih =>
    intro s h0 hstep
    exact ih (f s a) (hstep t.length s a (List.mem_cons_self a t) h0)
      (fun j s1 b hb => hstep j s1 b (List.mem_cons_of_mem a hb))

theorem foldl_count {α β : Type} (P : Nat → β → Prop) (R : α → β → Prop) (f : β → α → β)
    (l : List α) :
    ∀ s : β, P l.length s →
      (∀ j s a, a ∈ l → P (j + 1) s → P j (f s a)) →
      (∀ j s a, a ∈ l → P (j + 1) s → R a (f s a)) →
      (∀ j s a b, a ∈ l → P (j + 1) s → R b s → R b (f s a)) →
      P 0 (l.foldl f s) ∧ ∀ a, a ∈ l → R a (l.foldl f s) := by
  induction l with
  | nil => intro s h0 _ _ _; exact ⟨h0, fun a ha => by simp at ha⟩
  | cons a t ih =>
    intro s h0 hstep hest hpres
    have hP : P t.length (f s a) := hstep t.length s a (List.mem_cons_self a t) h0
    have hrec := ih (f s a) hP
      (fun j s1 b hb => hstep j s1 b (List.mem_cons_of_mem a hb))
      (fun j s1 b hb => hest j s1 b (List.mem_cons_of_mem a hb))
      (fun j s1 b c hb => hpres j s1 b c (List.mem_cons_of_mem a hb))
    refine ⟨hrec.1, fun x hx => ?_⟩
    rcases List.mem_cons.1 hx with rfl | hxt
    · have hRx : R x (f s x) := hest t.length s x (List.mem_cons_self x t) h0
      have key := foldl_count_inv (fun j s1 => P j s1 ∧ R x s1) f t (f s x) ⟨hP, hRx⟩
        (fun j s1 b hb hs1 => ⟨hstep j s1 b (List.mem_cons_of_mem x hb) hs1.1,
          hpres j s1 b x (List.mem_cons_of_mem x hb) hs1.1 hs1.2⟩)
      exact key.2
    · exact hrec.2 x hxt

/-! ## 32-bit sums -/

theorem INF_eq : INF = 1000000 := rfl

theorem add32_exact {a b : Int} (h1 : -2147483648 ≤ a + b) (h2 : a + b < 2147483648) :
    add32 a b = a + b := by
  unfold add32 wrap32
  omega

/-! ## One relaxation -/

theorem relax_edge_le (n : Nat) (mat : Nat → Int) (u v : Nat) (s : Vec × Bool) (x : Nat) :
    (relax_edge n mat u v s).1 x ≤ s.1 x := by
  unfold relax_edge
  dsimp only
  split_ifs with h1 h2
  · by_cases hx : x = v
    · subst hx; simp only [Function.update_same]; exact le_of_lt h2
    · simp only [Function.update_noteq hx]; exact le_refl _
  · exact le_refl _
  · exact le_refl _

theorem relax_edge_frame (n : Nat) (mat : Nat → Int) (u v : Nat) (s : Vec × Bool) (x : Nat)
    (hx : x ≠ v) : (relax_edge n mat u v s).1 x = s.1 x := by
  unfold relax_edge
  dsimp only
  split_ifs with h1 h2
  · simp only [Function.update_noteq hx]
  · rfl
  · rfl

theorem relax_edge_progress32 (n : Nat) (mat : Nat → Int) (u v : Nat) (s : Vec × Bool)
    (hw : mat (u * n + v) < INF) :
    (relax_edge n mat u v s).1 v ≤ add32 (s.1 u) (mat (u * n + v)) := by
  unfold relax_edge
  dsimp only
  rw [if_pos hw]
  split_ifs with h2
  · simp only [Function.update_same]; exact le_refl _
  · exact not_lt.1 h2

theorem relax_edge_flag_false (n : Nat) (mat : Nat → Int) (u v : Nat) (s : Vec × Bool)
    (h : (relax_edge n mat u v s).2 = false) : relax_edge n mat u v s = s := by
  unfold relax_edge at h ⊢
  dsimp only at h ⊢
  split_ifs at h ⊢ <;> rfl

theorem relax_edge_flag_true (n : Nat) (mat : Nat → Int) (u v : Nat) (s : Vec × Bool)
    (h : s.2 = true) : (relax_edge n mat u v s).2 = true := by
  unfold relax_edge
  dsimp only
  split_ifs <;> simp [h]

theorem relax_edge_quiet (n : Nat) (mat : Nat → Int) (u v : Nat) (s : Vec × Bool)
    (h : mat (u * n + v) < INF → ¬add32 (s.1 u) (mat (u * n + v)) < s.1 v) :
    relax_edge n mat u v s = s := by
  unfold relax_edge
  dsimp only
  split_ifs with h1 h2
  · exact absurd h2 (h h1)
  · rfl
  · rfl

theorem relax_edge_fires (n : Nat) (mat : Nat → Int) (u v : Nat) (s : Vec × Bool)
    (h1 : mat (u * n + v) < INF) (h2 : add32 (s.1 u) (mat (u * n + v)) < s.1 v) :
    (relax_edge n mat u v s).2 = true := by
  unfold relax_edge
  dsimp only
  rw [if_pos h1, if_pos h2]

theorem relax_edge_family {n m : Nat} {mat : Nat → Int} {Q : Nat → Vec → Prop}
    (hQ : StepFamily n m mat Q) {j u v : Nat} {s : Vec × Bool} (h : Q (j + 1) s.1)
    (hu : u < n) (hv : v < m) (hlt : s.1 u < INF) : Q j (relax_edge n mat u v s).1 := by
  unfold relax_edge
  dsimp only
  split_ifs with h1 h2
  · exact hQ.store j s.1 u v h hu hv hlt h1 h2
  · exact hQ.weaken j s.1 h
  · exact hQ.weaken j s.1 h

theorem relax_edge_progress {n m : Nat} {mat : Nat → Int} {Q : Nat → Vec → Prop}
    (hE : ExactFamily n m mat Q) {j u v : Nat} {s : Vec × Bool} (h : Q (j + 1) s.1)
    (hu : u < n) (hv : v < m) (hlt : s.1 u < INF) (hw : mat (u * n + v) < INF) :
    (relax_edge n mat u v s).1 v ≤ s.1 u + mat (u * n + v) := by
  have := relax_edge_progress32 n mat u v s hw
  rwa [hE j s.1 u v h hu hv hlt hw] at this

theorem weaken_many {n m : Nat} {mat : Nat → Int} {Q : Nat → Vec → Prop}
    (hQ : StepFamily n m mat Q) (j i : Nat) (c : Vec) (h : Q (j + i) c) : Q j c := by
  induction i with
  | zero => exact h
  | succ i ih => exact ih (hQ.weaken (j + i) c h)

/-! ## One row and one pass -/

theorem mem_owned {b e v : Nat} (h : v ∈ List.range' b (e - b)) : b ≤ v ∧ v < e := by
  rw [List.mem_range'_1] at h
  omega

theorem owned_mem {b e v : Nat} (h1 : b ≤ v) (h2 : v < e) : v ∈ List.range' b (e - b) := by
  rw [List.mem_range'_1]
  omega

theorem relax_row_le (n : Nat) (mat : Nat → Int) (b e u : Nat) (s : Vec × Bool) (x : Nat) :
    (relax_row n mat b e u s).1 x ≤ s.1 x := by
  unfold relax_row
  split_ifs with h
  · exact le_refl _
  · exact foldl_inv (fun s1 => s1.1 x ≤ s.1 x) _ _ s (le_refl _)
      (fun s1 v _ hs1 => le_trans (relax_edge_le n mat u v s1 x) hs1)

theorem relax_row_frame (n : Nat) (mat : Nat → Int) (b e u : Nat) (s : Vec × Bool) (x : Nat)
    (hx : ¬(b ≤ x ∧ x < e)) : (relax_row n mat b e u s).1 x = s.1 x := by
  unfold relax_row
  split_ifs with h
  · rfl
  · refine foldl_inv (fun s1 => s1.1 x = s.1 x) _ _ s rfl (fun s1 v hv hs1 => ?_)
    have hne : x ≠ v := fun hxv => hx (hxv ▸ mem_owned hv)
    exact (relax_edge_frame n mat u v s1 x hne).trans hs1

theorem relax_row_flag_false (n : Nat) (mat : Nat → Int) (b e u : Nat) (s : Vec × Bool)
    (h : (relax_row n mat b e u s).2 = false) : relax_row n mat b e u s = s := by
  unfold relax_row at h ⊢
  split_ifs at h ⊢ with h1
  · rfl
  · refine foldl_inv (fun s1 => s1.2 = false → s1 = s) _ _ s (fun _ => rfl)
      (fun s1 v _ hs1 hf => ?_) h
    have h2 := relax_edge_flag_false n mat u v s1 hf
    rw [h2] at hf ⊢
    exact hs1 hf

theorem relax_row_flag_true (n : Nat) (mat : Nat → Int) (b e u : Nat) (s : Vec × Bool)
    (h : s.2 = true) : (relax_row n mat b e u s).2 = true := by
  unfold relax_row
  split_ifs with h1
  · exact h
  · exact foldl_inv (fun s1 => s1.2 = true) _ _ s h
      (fun s1 v _ hs1 => relax_edge_flag_true n mat u v s1 hs1)

theorem relax_pass_le (n : Nat) (mat : Nat → Int) (b e : Nat) (d : Vec) (x : Nat) :
    (relax_pass n mat b e d).1 x ≤ d x :=
  foldl_inv (fun s1 => s1.1 x ≤ d x) _ (List.range n) (d, false) (le_refl _)
    (fun s1 u _ hs1 => le_trans (relax_row_le n mat b e u s1 x) hs1)

theorem relax_pass_frame (n : Nat) (mat : Nat → Int) (b e : Nat) (d : Vec) (x : Nat)
    (hx : ¬(b ≤ x ∧ x < e)) : (relax_pass n mat b e d).1 x = d x :=
  foldl_inv (fun s1 => s1.1 x = d x) _ (List.range n) (d, false) rfl
    (fun s1 u _ hs1 => (relax_row_frame n mat b e u s1 x hx).trans hs1)

theorem relax_pass_flag_false (n : Nat) (mat : Nat → Int) (b e : Nat) (d : Vec)
    (h : (relax_pass n mat b e d).2 = false) : (relax_pass n mat b e d).1 = d := by
  have key := foldl_inv (fun s1 => s1.2 = false → s1 = (d, false))
    (fun s u => relax_row n mat b e u s) (List.range n) (d, false) (fun _ => rfl)
    (fun s1 u _ hs1 hf => by
      have h2 := relax_row_flag_false n mat b e u s1 hf
      dsimp only at hf ⊢
      rw [h2] at hf ⊢
      exact hs1 hf) h
  exact congrArg Prod.fst key

theorem relax_row_skip (n : Nat) (mat : Nat → Int) (b e u : Nat) (s : Vec × Bool)
    (h : s.1 u = INF) : relax_row n mat b e u s = s := by
  unfold relax_row
  rw [if_pos h]

theorem relax_row_run (n : Nat) (mat : Nat → Int) (b e u : Nat) (s : Vec × Bool)
    (h : s.1 u ≠ INF) : relax_row n mat b e u s =
      (List.range' b (e - b)).foldl (fun s v => relax_edge n mat u v s) s := by
  unfold relax_row
  rw [if_neg h]

theorem relax_row_family {n m : Nat} {mat : Nat → Int} {Q : Nat → Vec → Prop}
    (hQ : StepFamily n m mat Q) (b e u : Nat) (s : Vec × Bool) (hu : u < n) (he : e ≤ m)
    (j0 : Nat) (h : Q (j0 + (e - b)) s.1) :
    Q j0 (relax_row n mat b e u s).1 ∧
    (ExactFamily n m mat Q → s.1 u < INF → ∀ v, b ≤ v → v < e → mat (u * n + v) < INF →
      (relax_row n mat b e u s).1 v ≤ s.1 u + mat (u * n + v)) := by
  by_cases hI : s.1 u = INF
  · rw [relax_row_skip n mat b e u s hI]
    exact ⟨weaken_many hQ j0 (e - b) s.1 h, fun _ hlt => absurd hI (ne_of_lt hlt)⟩
  · have hlt : s.1 u < INF := lt_of_le_of_ne (hQ.atMost _ _ h u hu) hI
    rw [relax_row_run n mat b e u s hI]
    have key := foldl_count (fun j s1 => Q (j0 + j) s1.1 ∧ ∀ x, s1.1 x ≤ s.1 x)
      (fun v s1 => ExactFamily n m mat Q → mat (u * n + v) < INF →
        s1.1 v ≤ s.1 u + mat (u * n + v))
      (fun s v => relax_edge n mat u v s) (List.range' b (e - b)) s
      ⟨by rw [List.length_range']; exact h, fun _ => le_refl _⟩
      (fun j s1 v hv hs1 => ⟨relax_edge_family hQ hs1.1 hu
          (lt_of_lt_of_le (mem_owned hv).2 he) (lt_of_le_of_lt (hs1.2 u) hlt),
        fun x => le_trans (relax_edge_le n mat u v s1 x) (hs1.2 x)⟩)
      (fun j s1 v hv hs1 hE hw => le_trans
        (relax_edge_progress hE hs1.1 hu (lt_of_lt_of_le (mem_owned hv).2 he)
          (lt_of_le_of_lt (hs1.2 u) hlt) hw)
        (add_le_add_right (hs1.2 u) _))
      (fun j s1 v y _ _ hR hE hw => le_trans (relax_edge_le n mat u v s1 y) (hR hE hw))
    exact ⟨key.1.1, fun hE _ v h1 h2 hw => key.2 v (owned_mem h1 h2) hE hw⟩

theorem relax_pass_family {n m : Nat} {mat : Nat → Int} {Q : Nat → Vec → Prop}
    (hQ : StepFamily n m mat Q) (b e : Nat) (d : Vec) (he : e ≤ m)
    (j0 : Nat) (h : Q (j0 + n * (e - b)) d) :
    Q j0 (relax_pass n mat b e d).1 ∧
    (ExactFamily n m mat Q → ∀ u v, u < n → b ≤ v → v < e → d u < INF →
      mat (u * n + v) < INF → (relax_pass n mat b e d).1 v ≤ d u + mat (u * n + v)) := by
  have key := foldl_count (fun i s1 => Q (j0 + i * (e - b)) s1.1 ∧ ∀ x, s1.1 x ≤ d x)
    (fun u s1 => ExactFamily n m mat Q → d u < INF → ∀ v, b ≤ v → v < e →
      mat (u * n + v) < INF → s1.1 v ≤ d u + mat (u * n + v))
    (fun s u => relax_row n mat b e u s) (List.range n) (d, false)
    ⟨by rw [List.length_range]; exact h, fun _ => le_refl _⟩
    (fun i s1 u hu hs1 => by
      have h1 : Q (j0 + i * (e - b) + (e - b)) s1.1 := by
        have := hs1.1
        rwa [Nat.succ_mul, ← Nat.add_assoc] at this
      exact ⟨(relax_row_family hQ b e u s1 (List.mem_range.1 hu) he _ h1).1,
        fun x => le_trans (relax_row_le n mat b e u s1 x) (hs1.2 x)⟩)
    (fun i s1 u hu hs1 hE hd v hv1 hv2 hw => by
      have h1 : Q (j0 + i * (e - b) + (e - b)) s1.1 := by
        have := hs1.1
        rwa [Nat.succ_mul, ← Nat.add_assoc] at this
      exact le_trans
        ((relax_row_family hQ b e u s1 (List.mem_range.1 hu) he _ h1).2 hE
          (lt_of_le_of_lt (hs1.2 u) hd) v hv1 hv2 hw)
        (add_le_add_right (hs1.2 u) _))
    (fun i s1 u _ _ _ hR hE hd v hv1 hv2 hw =>
      le_trans (relax_row_le n mat b e u s1 v) (hR hE hd v hv1 hv2 hw))
  have k1 := key.1.1
  rw [Nat.zero_mul, Nat.add_zero] at k1
  exact ⟨k1, fun hE u v hu h1 h2 hd hw =>
    key.2 u (List.mem_range.2 hu) hE hd v h1 h2 hw⟩

theorem relax_pass_family_sq {n : Nat} {mat : Nat → Int} {Q : Nat → Vec → Prop}
    (hQ : StepFamily n n mat Q) (b e : Nat) (d : Vec) (he : e ≤ n)
    (j0 : Nat) (h : Q (j0 + n * n) d) :
    Q j0 (relax_pass n mat b e d).1 ∧
    (ExactFamily n n mat Q → ∀ u v, u < n → b ≤ v → v < e → d u < INF →
      mat (u * n + v) < INF → (relax_pass n mat b e d).1 v ≤ d u + mat (u * n + v)) := by
  have hle : n * (e - b) ≤ n * n := Nat.mul_le_mul_left n (by omega)
  have h1 : Q (j0 + n * (e - b) + (n * n - n * (e - b))) d := by
    have e1 : j0 + n * (e - b) + (n * n - n * (e - b)) = j0 + n * n := by omega
    rw [e1]; exact h
  exact relax_pass_family hQ b e d he j0 (weaken_many hQ _ _ d h1)

theorem relax_pass_quiet (n : Nat) (mat : Nat → Int) (b e : Nat) (d : Vec)
    (h : ∀ u v, u < n → b ≤ v → v < e → d u ≠ INF → mat (u * n + v) < INF →
      ¬add32 (d u) (mat (u * n + v)) < d v) :
    relax_pass n mat b e d = (d, false) := by
  refine foldl_inv (fun s1 => s1 = (d, false)) _ (List.range n) (d, false) rfl
    (fun s1 u hu hs1 => ?_)
  show relax_row n mat b e u s1 = (d, false)
  rw [hs1]
  by_cases h0 : d u = INF
  · exact relax_row_skip n mat b e u (d, false) h0
  · rw [relax_row_run n mat b e u (d, false) h0]
    refine foldl_inv (fun s2 => s2 = (d, false)) _ _ (d, false) rfl (fun s2 v hv hs2 => ?_)
    show relax_edge n mat u v s2 = (d, false)
    rw [hs2]
    exact relax_edge_quiet n mat u v (d, false)
      (fun h1 => h u v (List.mem_range.1 hu) (mem_owned hv).1 (mem_owned hv).2 h0 h1)

theorem relax_row_no_fire (n : Nat) (mat : Nat → Int) (b e u : Nat) (s : Vec × Bool)
    (hf : (relax_row n mat b e u s).2 = false) (hI : s.1 u ≠ INF) (v : Nat) (h1 : b ≤ v)
    (h2 : v < e) (hw : mat (u * n + v) < INF) :
    ¬add32 (s.1 u) (mat (u * n + v)) < s.1 v := by
  rw [relax_row_run n mat b e u s hI] at hf
  exact foldl_each (fun s1 => s1.2 = false → s1 = s)
    (fun v s1 => s1.2 = false → mat (u * n + v) < INF →
      ¬add32 (s.1 u) (mat (u * n + v)) < s.1 v)
    (fun s v => relax_edge n mat u v s) (List.range' b (e - b)) s (fun _ => rfl)
    (fun s1 v _ hs1 hf1 => by
      have h3 := relax_edge_flag_false n mat u v s1 hf1
      dsimp only at hf1 ⊢
      rw [h3] at hf1 ⊢
      exact hs1 hf1)
    (fun s1 v _ hs1 hf1 hw1 hlt => by
      have h3 := relax_edge_flag_false n mat u v s1 hf1
      have hf2 : s1.2 = false := by
        dsimp only at hf1
        rw [h3] at hf1; exact hf1
      have hs : s1 = s := hs1 hf2
      rw [hs] at hf1
      dsimp only at hf1
      rw [relax_edge_fires n mat u v s hw1 hlt] at hf1
      exact Bool.noConfusion hf1)
    (fun s1 v y _ _ hR hf1 => by
      have h3 := relax_edge_flag_false n mat u v s1 hf1
      dsimp only at hf1
      rw [h3] at hf1
      exact hR hf1)
    v (owned_mem h1 h2) hf hw

theorem relax_pass_no_fire (n : Nat) (mat : Nat → Int) (b e : Nat) (d : Vec)
    (hf : (relax_pass n mat b e d).2 = false) (u v : Nat) (hu : u < n) (h1 : b ≤ v)
    (h2 : v < e) (hI : d u ≠ INF) (hw : mat (u * n + v) < INF) :
    ¬add32 (d u) (mat (u * n + v)) < d v :=
  foldl_each (fun s1 => s1.2 = false → s1 = (d, false))
    (fun u s1 => s1.2 = false → d u ≠ INF → ∀ v, b ≤ v → v < e → mat (u * n + v) < INF →
      ¬add32 (d u) (mat (u * n + v)) < d v)
    (fun s u => relax_row n mat b e u s) (List.range n) (d, false) (fun _ => rfl)
    (fun s1 u _ hs1 hf1 => by
      have h3 := relax_row_flag_false n mat b e u s1 hf1
      dsimp only at hf1 ⊢
      rw [h3] at hf1 ⊢
      exact hs1 hf1)
    (fun s1 u _ hs1 hf1 hI1 v hv1 hv2 hw1 => by
      have h3 := relax_row_flag_false n mat b e u s1 hf1
      have hf2 : s1.2 = false := by
        dsimp only at hf1
        rw [h3] at hf1; exact hf1
      have hs : s1 = (d, false) := hs1 hf2
      rw [hs] at hf1
      exact relax_row_no_fire n mat b e u (d, false) hf1 hI1 v hv1 hv2 hw1)
    (fun s1 u y _ _ hR hf1 => by
      have h3 := relax_row_flag_false n mat b e u s1 hf1
      dsimp only at hf1
      rw [h3] at hf1
      exact hR hf1)
    u (List.mem_range.2 hu) hf hI v h1 h2 hw

theorem relax_pass_flag_iff (n : Nat) (mat : Nat → Int) (b e : Nat) (d : Vec) :
    (relax_pass n mat b e d).2 = true ↔
      ∃ u v, u < n ∧ b ≤ v ∧ v < e ∧ d u ≠ INF ∧ mat (u * n + v) < INF ∧
        add32 (d u) (mat (u * n + v)) < d v := by
  constructor
  · intro hflag
    by_contra hno
    have hq := relax_pass_quiet n mat b e d (fun u v hu h1 h2 hne hw hlt =>
      hno ⟨u, v, hu, h1, h2, hne, hw, hlt⟩)
    rw [hq] at hflag
    exact Bool.false_ne_true hflag
  · rintro ⟨u, v, hu, h1, h2, hd, hw, hlt⟩
    by_contra hflag
    have hf : (relax_pass n mat b e d).2 = false := by simpa using hflag
    exact relax_pass_no_fire n mat b e d hf u v hu h1 h2 hd hw hlt

/-! ## The collectives -/

theorem allreduce_lor_false (p : Nat) (flag : Nat → Bool) (h : allreduce_lor p flag = false)
    (r : Nat) (hr : r < p) : flag r = false := by
  unfold allreduce_lor at h
  rw [List.any_eq_false] at h
  simpa using h r (List.mem_range.2 hr)

theorem allreduce_lor_true (p : Nat) (flag : Nat → Bool) (h : allreduce_lor p flag = true) :
    ∃ r, r < p ∧ flag r = true := by
  unfold allreduce_lor at h
  rw [List.any_eq_true] at h
  obtain ⟨r, hr, hf⟩ := h
  exact ⟨r, List.mem_range.1 hr, hf⟩

theorem allreduce_min_le_zero (p : Nat) (ds : Nat → Vec) (v : Nat) :
    allreduce_min p ds v ≤ ds 0 v :=
  foldl_inv (fun acc => acc ≤ ds 0 v) _ (List.range p) (ds 0 v) (le_refl _)
    (fun _ _ _ hacc => le_trans (min_le_left _ _) hacc)

theorem allreduce_min_le (p : Nat) (ds : Nat → Vec) (v r : Nat) (hr : r < p) :
    allreduce_min p ds v ≤ ds r v :=
  foldl_each (fun _ => True) (fun r acc => acc ≤ ds r v)
    (fun acc r => min acc (ds r v)) (List.range p) (ds 0 v) trivial
    (fun _ _ _ _ => trivial) (fun _ _ _ _ => min_le_right _ _)
    (fun _ _ _ _ _ hR => le_trans (min_le_left _ _) hR) r (List.mem_range.2 hr)

theorem allreduce_min_attained (p : Nat) (hp : 1 ≤ p) (ds : Nat → Vec) (v : Nat) :
    ∃ r, r < p ∧ allreduce_min p ds v = ds r v :=
  foldl_inv (fun acc => ∃ r, r < p ∧ acc = ds r v) (fun acc r => min acc (ds r v))
    (List.range p) (ds 0 v) ⟨0, hp, rfl⟩
    (fun acc r hr hacc => by
      show ∃ r1, r1 < p ∧ min acc (ds r v) = ds r1 v
      rcases min_choice acc (ds r v) with h | h
      · rw [h]; exact hacc
      · rw [h]; exact ⟨r, List.mem_range.1 hr, rfl⟩)

/-! ## One round of all ranks -/

theorem local_pass_le (n p : Nat) (mat : Nat → Int) (s : LoopState) (r x : Nat) :
    (local_pass n p mat s r).1 x ≤ s.my_dist r x :=
  relax_pass_le n mat _ _ _ x

theorem merge_le (n p : Nat) (mat : Nat → Int) (s : LoopState) (r x : Nat)
    (hu : s.my_dist r = s.my_dist 0) :
    (after_merge n p mat s).my_dist r x ≤ s.my_dist r x := by
  rw [hu]
  exact le_trans (allreduce_min_le_zero p _ x) (local_pass_le n p mat s 0 x)

theorem merge_eq_owner (n p : Nat) (mat : Nat → Int) (s : LoopState) (hp : 1 ≤ p)
    (hu : ∀ r, r < p → s.my_dist r = s.my_dist 0) (o v : Nat) (ho : o < p)
    (h1 : begin n p o ≤ v) (h2 : v < begin n p o + load n p o) :
    allreduce_min p (fun r => (local_pass n p mat s r).1) v = (local_pass n p mat s o).1 v := by
  apply le_antisymm (allreduce_min_le p _ v o ho)
  obtain ⟨r, hr, hrv⟩ := allreduce_min_attained p hp (fun r => (local_pass n p mat s r).1) v
  rw [hrv]
  by_cases hro : r = o
  · rw [hro]
  · have hout : ¬(begin n p r ≤ v ∧ v < begin n p r + load n p r) :=
      fun h => hro (owner_unique n p h ⟨h1, h2⟩)
    have hfr : (local_pass n p mat s r).1 v = s.my_dist r v :=
      relax_pass_frame n mat _ _ _ v hout
    show (local_pass n p mat s o).1 v ≤ (local_pass n p mat s r).1 v
    rw [hfr, hu r hr, ← hu o ho]
    exact local_pass_le n p mat s o v

theorem state_at_uniform (n p : Nat) (mat : Nat → Int) (k r : Nat) :
    (state_at n p mat k).my_dist r = (state_at n p mat k).my_dist 0 := by
  cases k <;> rfl

theorem break_unchanged (n p : Nat) (mat : Nat → Int) (s : LoopState)
    (h : combined_change n p mat s = false) (r : Nat) (hr : r < p) :
    (local_pass n p mat s r).1 = s.my_dist r :=
  relax_pass_flag_false n mat _ _ _ (allreduce_lor_false p _ h r hr)

/-! ## The rounds of a run -/

theorem state_at_iter (n p : Nat) (mat : Nat → Int) (k : Nat) :
    (state_at n p mat k).my_iter_num = k := by
  induction k with
  | zero => rfl
  | succ k ih => simp [state_at, after_merge, ih]

theorem round_loop_cases (n p : Nat) (mat : Nat → Int) (fuel : Nat) :
    ∀ j, (∃ i, j ≤ i ∧ i < j + fuel ∧ combined_change n p mat (state_at n p mat i) = false ∧
        (∀ m, j ≤ m → m < i → combined_change n p mat (state_at n p mat m) = true) ∧
        round_loop n p mat fuel (state_at n p mat j) = after_break n p mat (state_at n p mat i)) ∨
      ((∀ m, j ≤ m → m < j + fuel → combined_change n p mat (state_at n p mat m) = true) ∧
        round_loop n p mat fuel (state_at n p mat j) = state_at n p mat (j + fuel)) := by
  induction fuel with
  | zero =>
    intro j
    exact Or.inr ⟨fun m h1 h2 => by omega, rfl⟩
  | succ f ih =>
    intro j
    by_cases hc : combined_change n p mat (state_at n p mat j) = true
    · have hstep : round_loop n p mat (f + 1) (state_at n p mat j) =
          round_loop n p mat f (state_at n p mat (j + 1)) := by
        simp [round_loop, hc, state_at]
      have hall : ∀ m, j ≤ m → m < j + 1 →
          combined_change n p mat (state_at n p mat m) = true := by
        intro m h1 h2
        have : m = j := by omega
        rw [this]; exact hc
      rcases ih (j + 1) with ⟨i, h1, h2, h3, h4, h5⟩ | ⟨h4, h5⟩
      · refine Or.inl ⟨i, by omega, by omega, h3, fun m hm1 hm2 => ?_, hstep.trans h5⟩
        by_cases hmj : m < j + 1
        · exact hall m hm1 hmj
        · exact h4 m (by omega) hm2
      · refine Or.inr ⟨fun m hm1 hm2 => ?_, ?_⟩
        · by_cases hmj : m < j + 1
          · exact hall m hm1 hmj
          · exact h4 m (by omega) (by omega)
        · rw [hstep, h5]; congr 1; omega
    · have hc2 : combined_change n p mat (state_at n p mat j) = false := by
        simpa using hc
      refine Or.inl ⟨j, le_refl _, by omega, hc2, fun m h1 h2 => by omega, ?_⟩
      simp [round_loop, hc2]

theorem final_uniform (n p : Nat) (mat : Nat → Int) (fuel r : Nat) (hr : r < p) (hp : 1 ≤ p) :
    (round_loop n p mat fuel init_state).my_dist r =
      (round_loop n p mat fuel init_state).my_dist 0 := by
  rcases round_loop_cases n p mat fuel 0 with ⟨i, _, _, h3, _, h5⟩ | ⟨_, h5⟩
  · have h5a : round_loop n p mat fuel init_state =
        after_break n p mat (state_at n p mat i) := h5
    rw [h5a]
    show (local_pass n p mat (state_at n p mat i) r).1 =
      (local_pass n p mat (state_at n p mat i) 0).1
    rw [break_unchanged n p mat _ h3 r hr, break_unchanged n p mat _ h3 0 hp]
    exact state_at_uniform n p mat i r
  · have h5a : round_loop n p mat fuel init_state = state_at n p mat (0 + fuel) := h5
    rw [h5a]
    exact state_at_uniform n p mat _ r

/-- C8: one local relaxation pass over the owned range `[my_begin, my_end)` leaves
`my_dist[v]` unchanged for every `v` outside the range; the weight matrix is a read-only
argument of the pass and is not part of its result. -/
theorem round_executor_frame (n : Nat) (mat : Nat → Int) (my_begin my_end : Nat) (d : Vec)
    (v : Nat) (hv : ¬(my_begin ≤ v ∧ v < my_end)) :
    (relax_pass n mat my_begin my_end d).1 v = d v :=
  relax_pass_frame n mat my_begin my_end d v hv

theorem round_executor_frame_witness :
    ¬(1 ≤ 2 ∧ 2 < 2) ∧ (relax_pass 3 scenario2 1 2 init_dist).1 2 = init_dist 2 :=
  ⟨by decide, round_executor_frame 3 scenario2 1 2 init_dist 2 (by decide)⟩

/-- C9: in every round (after any number `k` of merged rounds) the `MPI_MIN` merge gives,
at each vertex `v`, the value computed by the local pass of the rank that owns `v`; after
the merge all ranks hold the same array; when the round ends in the no-change `break`
the arrays of all ranks are equal too, and so are they when the round loop is left. -/
theorem merge_takes_owner_value (n p : Nat) (mat : Nat → Int) (hp : 1 ≤ p) (k : Nat) :
    (∀ o v r, o < p → begin n p o ≤ v → v < begin n p o + load n p o →
      (after_merge n p mat (state_at n p mat k)).my_dist r v =
        (local_pass n p mat (state_at n p mat k) o).1 v) ∧
    (∀ r1 r2, (after_merge n p mat (state_at n p mat k)).my_dist r1 =
      (after_merge n p mat (state_at n p mat k)).my_dist r2) ∧
    (combined_change n p mat (state_at n p mat k) = false →
      ∀ r1 r2, r1 < p → r2 < p →
        (after_break n p mat (state_at n p mat k)).my_dist r1 =
          (after_break n p mat (state_at n p mat k)).my_dist r2) ∧
    (∀ r1 r2, r1 < p → r2 < p →
      (round_loop n p mat (n - 1) init_state).my_dist r1 =
        (round_loop n p mat (n - 1) init_state).my_dist r2) := by
  refine ⟨fun o v r ho h1 h2 => ?_, fun _ _ => rfl, fun hc r1 r2 h1 h2 => ?_,
    fun r1 r2 h1 h2 => ?_⟩
  · exact merge_eq_owner n p mat _ hp (fun r _ => state_at_uniform n p mat k r) o v ho h1 h2
  · show (local_pass n p mat (state_at n p mat k) r1).1 =
      (local_pass n p mat (state_at n p mat k) r2).1
    rw [break_unchanged n p mat _ hc r1 h1, break_unchanged n p mat _ hc r2 h2,
      state_at_uniform n p mat k r1, state_at_uniform n p mat k r2]
  · rw [final_uniform n p mat (n - 1) r1 h1 hp, final_uniform n p mat (n - 1) r2 h2 hp]

theorem merge_takes_owner_value_witness :
    (∀ o v r, o < 2 → begin 3 2 o ≤ v → v < begin 3 2 o + load 3 2 o →
      (after_merge 3 2 scenario2 (state_at 3 2 scenario2 1)).my_dist r v =
        (local_pass 3 2 scenario2 (state_at 3 2 scenario2 1) o).1 v) ∧
    (∀ r1 r2, (after_merge 3 2 scenario2 (state_at 3 2 scenario2 1)).my_dist r1 =
      (after_merge 3 2 scenario2 (state_at 3 2 scenario2 1)).my_dist r2) ∧
    (combined_change 3 2 scenario2 (state_at 3 2 scenario2 1) = false →
      ∀ r1 r2, r1 < 2 → r2 < 2 →
        (after_break 3 2 scenario2 (state_at 3 2 scenario2 1)).my_dist r1 =
          (after_break 3 2 scenario2 (state_at 3 2 scenario2 1)).my_dist r2) ∧
    (∀ r1 r2, r1 < 2 → r2 < 2 →
      (round_loop 3 2 scenario2 (3 - 1) init_state).my_dist r1 =
        (round_loop 3 2 scenario2 (3 - 1) init_state).my_dist r2) :=
  merge_takes_owner_value 3 2 scenario2 (by decide) 1

/-- C10: no step of a run increases a distance entry: a single relaxation, the local pass
of any rank in round `k + 1`, and the merge of round `k + 1` all leave every entry at most
what it was after round `k`. -/
theorem distances_never_increase (n p : Nat) (mat : Nat → Int) (k r v : Nat) :
    (∀ u w s, (relax_edge n mat u w s).1 v ≤ s.1 v) ∧
    (local_pass n p mat (state_at n p mat k) r).1 v ≤ (state_at n p mat k).my_dist r v ∧
    (state_at n p mat (k + 1)).my_dist r v ≤ (state_at n p mat k).my_dist r v ∧
    (after_break n p mat (state_at n p mat k)).my_dist r v ≤
      (state_at n p mat k).my_dist r v :=
  ⟨fun u w s => relax_edge_le n mat u w s v, local_pass_le n p mat _ r v,
    merge_le n p mat _ r v (state_at_uniform n p mat k r), local_pass_le n p mat _ r v⟩

theorem srcwalk_lt {n : Nat} {mat : Nat → Int} {l : List Nat} {W : Int}
    (h : SrcWalk n mat l W) : W < INF := by
  cases h with
  | src _ => decide
  | step _ _ _ hlt => exact hlt

theorem srcwalk_mem_lt {n : Nat} {mat : Nat → Int} {l : List Nat} {W : Int}
    (h : SrcWalk n mat l W) : ∀ x, x ∈ l → x < n := by
  induction h with
  | src h0 => intro x hx; simp at hx; omega
  | step _ hv _ _ ih =>
    intro x hx
    rcases List.mem_cons.1 hx with rfl | hx1
    · exact hv
    · exact ih x hx1

theorem walk_end_lt {n : Nat} {mat : Nat → Int} {a b : Nat} {W : Int}
    (h : Walk n mat a b W) : b < n := by
  cases h with
  | nil ha => exact ha
  | snoc _ hv _ => exact hv

theorem srcwalk_to_walk {n : Nat} {mat : Nat → Int} {l : List Nat} {W : Int}
    (h : SrcWalk n mat l W) : ∀ v t, l = v :: t → Walk n mat 0 v W := by
  induction h with
  | src h0 =>
    intro v t e
    have : v = 0 := by simp at e; exact e.1.symm
    subst this
    exact Walk.nil 0 h0
  | step _ hv hw _ ih =>
    intro x t e
    have : x = _ := (List.cons.inj e).1.symm
    subst this
    exact Walk.snoc (ih _ _ rfl) hv hw

theorem srcwalk_suffix {n : Nat} {mat : Nat → Int} (v : Nat) (t : List Nat) :
    ∀ (s : List Nat) (y : Nat) (W : Int), SrcWalk n mat (y :: (s ++ v :: t)) W →
      ∃ Wt, SrcWalk n mat (v :: t) Wt ∧ Walk n mat v y (W - Wt) := by
  intro s
  induction s with
  | nil =>
    intro y W h
    cases h with
    | @step _ _ _ W0 h0 hy hw _ =>
      refine ⟨W0, h0, ?_⟩
      have hv : v < n := srcwalk_mem_lt h0 v (List.mem_cons_self v t)
      have e : W0 + mat (v * n + y) - W0 = 0 + mat (v * n + y) := by ring
      rw [e]
      exact Walk.snoc (Walk.nil v hv) hy hw
  | cons z s ih =>
    intro y W h
    cases h with
    | @step _ _ _ W0 h0 hy hw _ =>
      obtain ⟨Wt, ht, hwalk⟩ := ih z W0 h0
      refine ⟨Wt, ht, ?_⟩
      have e : W0 + mat (z * n + y) - Wt = (W0 - Wt) + mat (z * n + y) := by ring
      rw [e]
      exact Walk.snoc hwalk hy hw

theorem srcwalk_shorten {n : Nat} {mat : Nat → Int} (hno : ¬NegCycleReachable n mat)
    {l : List Nat} {W : Int} (h : SrcWalk n mat l W) :
    ∃ l1 W1, SrcWalk n mat l1 W1 ∧ l1.head? = l.head? ∧ l1.Nodup ∧ W1 ≤ W := by
  induction h with
  | src h0 => exact ⟨[0], 0, SrcWalk.src h0, rfl, by simp, le_refl _⟩
  | @step u v l W0 _ hv hw hlt ih =>
    obtain ⟨l1, W1, h1, hhead, hnd, hle⟩ := ih
    obtain ⟨t1, rfl⟩ : ∃ t1, l1 = u :: t1 := by
      cases l1 with
      | nil => simp at hhead
      | cons a t1 =>
        simp at hhead
        exact ⟨t1, by rw [hhead]⟩
    have hlt1 : W1 + mat (u * n + v) < INF := by linarith
    have hstep : SrcWalk n mat (v :: u :: t1) (W1 + mat (u * n + v)) :=
      SrcWalk.step h1 hv hw hlt1
    by_cases hmem : v ∈ u :: t1
    · obtain ⟨s, t, hst⟩ := List.append_of_mem hmem
      rw [hst] at hstep hnd
      obtain ⟨Wt, ht, hcyc⟩ := srcwalk_suffix v t s v _ hstep
      have hreach : Walk n mat 0 v Wt := srcwalk_to_walk ht v t rfl
      have hnn : ¬(W1 + mat (u * n + v) - Wt < 0) :=
        fun hneg => hno ⟨v, Wt, _, hreach, hcyc, hneg⟩
      refine ⟨v :: t, Wt, ht, rfl, hnd.of_append_right, ?_⟩
      linarith
    · exact ⟨v :: u :: t1, _, hstep, rfl, List.nodup_cons.2 ⟨hmem, hnd⟩, by linarith⟩

theorem nodup_length_le {n : Nat} {l : List Nat} (hnd : l.Nodup) (hlt : ∀ x, x ∈ l → x < n) :
    l.length ≤ n := by
  have h1 : l.toFinset.card = l.length := List.toFinset_card_of_nodup hnd
  have h2 : l.toFinset ⊆ Finset.range n := by
    intro x hx
    exact Finset.mem_range.2 (hlt x (List.mem_toFinset.1 hx))
  have h3 := Finset.card_le_card h2
  rw [Finset.card_range] at h3
  omega

/-! ## What the invariants give -/

theorem bound_step {n : Nat} {mat : Nat → Int} {k : Nat} {d e : Vec}
    (hB : Bound n mat k d) (hG : GoodStep n mat d e) : Bound n mat (k + 1) e := by
  intro v l W h hlen
  cases h with
  | src h0 =>
    exact le_trans (hG.1 0) (hB 0 [] 0 (SrcWalk.src h0) (Nat.zero_le _))
  | @step u _ t W0 h0 hv hw hlt =>
    have hu : u < n := srcwalk_mem_lt h0 u (List.mem_cons_self u t)
    have hdu : d u ≤ W0 := hB u t W0 h0 (by simpa using hlen)
    have hW0 : W0 < INF := srcwalk_lt h0
    have := hG.2 u v hu hv (lt_of_le_of_lt hdu hW0) hw
    linarith

theorem bound_mono {n : Nat} {mat : Nat → Int} {k : Nat} {d e : Vec}
    (hB : Bound n mat k d) (hle : ∀ x, e x ≤ d x) : Bound n mat k e :=
  fun v l W h hlen => le_trans (hle v) (hB v l W h hlen)

theorem bound_weaken {n : Nat} {mat : Nat → Int} {j k : Nat} {d : Vec}
    (hB : Bound n mat k d) (hjk : j ≤ k) : Bound n mat j d :=
  fun v l W h hlen => hB v l W h (le_trans hlen hjk)

theorem fix_bound {n : Nat} {mat : Nat → Int} {d : Vec} (hF : Fix n mat d)
    (hB : Bound n mat 0 d) {l : List Nat} {W : Int} (h : SrcWalk n mat l W) :
    ∀ v t, l = v :: t → d v ≤ W := by
  induction h with
  | src h0 =>
    intro v t e
    have : v = 0 := by simp at e; exact e.1.symm
    subst this
    exact hB 0 [] 0 (SrcWalk.src h0) (le_refl _)
  | @step u v0 t0 W0 h0 hv hw hlt ih =>
    intro x t e
    have : x = v0 := (List.cons.inj e).1.symm
    subst this
    have hu : u < n := srcwalk_mem_lt h0 u (List.mem_cons_self u t0)
    have hdu : d u ≤ W0 := ih u t0 rfl
    have := hF u x hu hv (lt_of_le_of_lt hdu (srcwalk_lt h0)) hw
    linarith

theorem shorten_cons {n : Nat} {mat : Nat → Int} (hno : ¬NegCycleReachable n mat)
    {v : Nat} {t : List Nat} {W : Int} (h : SrcWalk n mat (v :: t) W) :
    ∃ t1 W1, SrcWalk n mat (v :: t1) W1 ∧ (v :: t1).Nodup ∧ W1 ≤ W := by
  obtain ⟨l1, W1, h1, hhead, hnd, hle⟩ := srcwalk_shorten hno h
  obtain ⟨t1, rfl⟩ : ∃ t1, l1 = v :: t1 := by
    cases l1 with
    | nil => simp at hhead
    | cons a t1 =>
      simp at hhead
      exact ⟨t1, by rw [hhead]⟩
  exact ⟨t1, W1, h1, hnd, hle⟩

theorem budget_bound {n : Nat} {mat : Nat → Int} {d : Vec}
    (hno : ¬NegCycleReachable n mat) (hB : Bound n mat (n - 1) d)
    {v : Nat} {t : List Nat} {W : Int} (h : SrcWalk n mat (v :: t) W) : d v ≤ W := by
  obtain ⟨t1, W1, h1, hnd, hle⟩ := shorten_cons hno h
  have hlen := nodup_length_le hnd (srcwalk_mem_lt h1)
  have := hB v t1 W1 h1 (by simp at hlen; omega)
  linarith

theorem srcwalk_weight_ge {n : Nat} {mat : Nat → Int} {B : Int}
    (hlo : ∀ u v, u < n → v < n → mat (u * n + v) < INF → -B ≤ mat (u * n + v))
    {l : List Nat} {W : Int} (h : SrcWalk n mat l W) : B ≤ W + l.length * B := by
  induction h with
  | src _ => simp
  | @step u v l W0 h0 hv hw _ ih =>
    have hu : u < n := srcwalk_mem_lt h0 u (List.mem_cons_self u l)
    have h1 := hlo u v hu hv hw
    have e : (((v :: u :: l).length : Nat) : Int) = ((u :: l).length : Int) + 1 := by simp
    rw [e]
    linarith

theorem srcwalk_weight_le {n : Nat} {mat : Nat → Int} {B : Int}
    (hhi : ∀ u v, u < n → v < n → mat (u * n + v) < INF → mat (u * n + v) ≤ B)
    {l : List Nat} {W : Int} (h : SrcWalk n mat l W) : W + B ≤ l.length * B := by
  induction h with
  | src _ => simp
  | @step u v l W0 h0 hv hw _ ih =>
    have hu : u < n := srcwalk_mem_lt h0 u (List.mem_cons_self u l)
    have h1 := hhi u v hu hv hw
    have e : (((v :: u :: l).length : Nat) : Int) = ((u :: l).length : Int) + 1 := by simp
    rw [e]
    linarith

theorem simple_weight_ge {n : Nat} {mat : Nat → Int} {B : Int} (hB : 0 ≤ B)
    (hlo : ∀ u v, u < n → v < n → mat (u * n + v) < INF → -B ≤ mat (u * n + v))
    {l : List Nat} {W : Int} (h : SrcWalk n mat l W) (hnd : l.Nodup) : B - n * B ≤ W := by
  have h1 := srcwalk_weight_ge hlo h
  have h2 : ((l.length : Nat) : Int) ≤ (n : Int) :=
    Int.ofNat_le.2 (nodup_length_le hnd (srcwalk_mem_lt h))
  have h3 := mul_le_mul_of_nonneg_right h2 hB
  linarith

theorem simple_weight_le {n : Nat} {mat : Nat → Int} {B : Int} (hB : 0 ≤ B)
    (hhi : ∀ u v, u < n → v < n → mat (u * n + v) < INF → mat (u * n + v) ≤ B)
    {l : List Nat} {W : Int} (h : SrcWalk n mat l W) (hnd : l.Nodup) : W + B ≤ n * B := by
  have h1 := srcwalk_weight_le hhi h
  have h2 : ((l.length : Nat) : Int) ≤ (n : Int) :=
    Int.ofNat_le.2 (nodup_length_le hnd (srcwalk_mem_lt h))
  have h3 := mul_le_mul_of_nonneg_right h2 hB
  linarith

theorem sound_ge {n : Nat} {mat : Nat → Int} {B : Int} (hno : ¬NegCycleReachable n mat)
    (hB : 0 ≤ B)
    (hlo : ∀ u v, u < n → v < n → mat (u * n + v) < INF → -B ≤ mat (u * n + v))
    {c : Vec} (hS : Sound n mat c) (v : Nat) (hv : v < n) (hlt : c v < INF) :
    B - n * B ≤ c v := by
  obtain ⟨l, hl⟩ := hS v hv hlt
  obtain ⟨t1, W1, h1, hnd, hle⟩ := shorten_cons hno hl
  exact le_trans (simple_weight_ge hB hlo h1 hnd) hle

theorem walk_to_simple {n : Nat} {mat : Nat → Int} {B : Int} (hno : ¬NegCycleReachable n mat)
    (hB : 0 ≤ B)
    (hhi : ∀ u v, u < n → v < n → mat (u * n + v) < INF → mat (u * n + v) ≤ B)
    (hn : n * B < INF) {a v : Nat} {W : Int} (h : Walk n mat a v W) :
    a = 0 → ∃ t W1, SrcWalk n mat (v :: t) W1 ∧ (v :: t).Nodup ∧ W1 ≤ W := by
  induction h with
  | nil ha =>
    intro e
    subst e
    exact ⟨[], 0, SrcWalk.src ha, by simp, le_refl _⟩
  | @snoc u v W0 _ hv hw ih =>
    intro e
    obtain ⟨t, W1, h1, hnd, hle⟩ := ih e
    have h2 := simple_weight_le hB hhi h1 hnd
    have hu : u < n := srcwalk_mem_lt h1 u (List.mem_cons_self u t)
    have h3 := hhi u v hu hv hw
    have h4 : W1 + mat (u * n + v) < INF := by linarith
    obtain ⟨t2, W2, h5, hnd2, hle2⟩ := shorten_cons hno (SrcWalk.step h1 hv hw h4)
    exact ⟨t2, W2, h5, hnd2, by linarith⟩

/-! ## The rounds of the source keep the invariants -/

theorem init_inv (n : Nat) (mat : Nat → Int) :
    AtMostINF n init_dist ∧ Sound n mat init_dist ∧ Bound n mat 0 init_dist := by
  refine ⟨fun x _ => ?_, fun v hv hvI => ?_, fun v l W h hlen => ?_⟩
  · unfold init_dist
    split_ifs
    · decide
    · exact le_refl _
  · unfold init_dist at hvI ⊢
    by_cases h0 : v = 0
    · subst h0
      exact ⟨[], by simpa using SrcWalk.src hv⟩
    · simp [h0] at hvI
  · have hl : l = [] := List.length_eq_zero.1 (Nat.le_zero.1 hlen)
    subst hl
    cases h
    simp [init_dist]

theorem local_pass_family {n : Nat} {mat : Nat → Int} {Q : Nat → Vec → Prop}
    (hQ : StepFamily n n mat Q) (p : Nat) (hp : 1 ≤ p) (s : LoopState) (r : Nat) (hr : r < p)
    (j0 : Nat) (h : Q (j0 + n * n) (s.my_dist r)) :
    Q j0 (local_pass n p mat s r).1 ∧
    (ExactFamily n n mat Q → ∀ u v, u < n → begin n p r ≤ v → v < begin n p r + load n p r →
      s.my_dist r u < INF → mat (u * n + v) < INF →
      (local_pass n p mat s r).1 v ≤ s.my_dist r u + mat (u * n + v)) :=
  relax_pass_family_sq hQ _ _ _ (range_end_le n p r hp hr) j0 h

theorem merge_family {n : Nat} {mat : Nat → Int} {Q : Nat → Vec → Prop}
    (hQ : StepFamily n n mat Q) (p : Nat) (hp : 1 ≤ p) (s : LoopState)
    (hu : ∀ r, r < p → s.my_dist r = s.my_dist 0) (j0 : Nat)
    (h : Q (j0 + n * n) (s.my_dist 0)) :
    Q j0 (allreduce_min p fun r => (local_pass n p mat s r).1) :=
  hQ.select j0 _ (fun r => (local_pass n p mat s r).1) p
    (fun r hr => (local_pass_family hQ p hp s r hr j0 (by rw [hu r hr]; exact h)).1)
    (fun x => allreduce_min_attained p hp _ x)

theorem family_state {n : Nat} {mat : Nat → Int} {Q : Nat → Vec → Prop}
    (hQ : StepFamily n n mat Q) (p : Nat) (hp : 1 ≤ p) :
    ∀ k j, Q (j + k * (n * n)) init_dist → Q j ((state_at n p mat k).my_dist 0) := by
  intro k
  induction k with
  | zero =>
    intro j h
    rw [Nat.zero_mul, Nat.add_zero] at h
    exact h
  | succ k ih =>
    intro j h
    have h1 : Q (j + n * n + k * (n * n)) init_dist := by
      have e : j + n * n + k * (n * n) = j + (k + 1) * (n * n) := by
        rw [Nat.succ_mul]; omega
      rw [e]; exact h
    exact merge_family hQ p hp (state_at n p mat k)
      (fun r _ => state_at_uniform n p mat k r) j (ih _ h1)

theorem code_good_step {n : Nat} {mat : Nat → Int} {Q : Nat → Vec → Prop}
    (hQ : StepFamily n n mat Q) (hE : ExactFamily n n mat Q) (p : Nat) (hp : 1 ≤ p)
    (s : LoopState) (hu : ∀ r, r < p → s.my_dist r = s.my_dist 0) (j0 : Nat)
    (h : Q (j0 + n * n) (s.my_dist 0)) :
    GoodStep n mat (s.my_dist 0) (allreduce_min p fun r => (local_pass n p mat s r).1) := by
  refine ⟨fun x => ?_, fun u v hun hvn hd hw => ?_⟩
  · exact le_trans (allreduce_min_le_zero p _ x) (local_pass_le n p mat s 0 x)
  · obtain ⟨o, ho, h1, h2⟩ := owner_exists n p v p (by rw [begin_top n p hp]; exact hvn)
    refine le_trans (allreduce_min_le p _ v o ho) ?_
    have := (local_pass_family hQ p hp s o ho j0 (by rw [hu o ho]; exact h)).2 hE
      u v hun h1 h2 (by rw [hu o ho]; exact hd) hw
    exact le_trans this (le_of_eq (by rw [hu o ho]))

theorem family_bound {n : Nat} {mat : Nat → Int} {Q : Nat → Vec → Prop}
    (hQ : StepFamily n n mat Q) (hE : ExactFamily n n mat Q) (p : Nat) (hp : 1 ≤ p) :
    ∀ k j, Q (j + k * (n * n)) init_dist →
      Bound n mat k ((state_at n p mat k).my_dist 0) := by
  intro k
  induction k with
  | zero =>
    intro j _
    exact (init_inv n mat).2.2
  | succ k ih =>
    intro j h
    have h1 : Q (j + n * n + k * (n * n)) init_dist := by
      have e : j + n * n + k * (n * n) = j + (k + 1) * (n * n) := by
        rw [Nat.succ_mul]; omega
      rw [e]; exact h
    exact bound_step (ih _ h1) (code_good_step hQ hE p hp (state_at n p mat k)
      (fun r _ => state_at_uniform n p mat k r) j (family_state hQ p hp k _ h1))

theorem break_quiet (n p : Nat) (mat : Nat → Int) (hp : 1 ≤ p) (k : Nat)
    (hc : combined_change n p mat (state_at n p mat k) = false) (u v : Nat) (hu : u < n)
    (hv : v < n) (hd : (state_at n p mat k).my_dist 0 u ≠ INF) (hw : mat (u * n + v) < INF) :
    ¬add32 ((state_at n p mat k).my_dist 0 u) (mat (u * n + v)) <
      (state_at n p mat k).my_dist 0 v := by
  obtain ⟨o, ho, h1, h2⟩ := owner_exists n p v p (by rw [begin_top n p hp]; exact hv)
  have hf : (local_pass n p mat (state_at n p mat k) o).2 = false :=
    allreduce_lor_false p _ hc o ho
  have hun0 := state_at_uniform n p mat k o
  have := relax_pass_no_fire n mat (begin n p o) (begin n p o + load n p o)
    ((state_at n p mat k).my_dist o) hf u v hu h1 h2 (by rw [hun0]; exact hd) hw
  rw [hun0] at this
  exact this

theorem break_fix {n : Nat} {mat : Nat → Int} {Q : Nat → Vec → Prop}
    (hE : ExactFamily n n mat Q) (p : Nat) (hp : 1 ≤ p) (k : Nat)
    (hc : combined_change n p mat (state_at n p mat k) = false)
    (h : Q 1 ((state_at n p mat k).my_dist 0)) :
    Fix n mat ((state_at n p mat k).my_dist 0) := by
  intro u v hun hvn hd hw
  have h1 := break_quiet n p mat hp k hc u v hun hvn (ne_of_lt hd) hw
  rw [hE 0 _ u v h hun hvn hd hw] at h1
  exact not_lt.1 h1

/-- What the round loop leaves: the ranks agree on the array after `k` merged rounds, and
either the round after them found no change on any rank, or all `fuel` rounds were
merged. -/
theorem round_loop_final (n p : Nat) (mat : Nat → Int) (fuel : Nat) :
    ∃ k, k ≤ fuel ∧
      (∀ r, r < p → (round_loop n p mat fuel init_state).my_dist r =
        (state_at n p mat k).my_dist 0) ∧
      (combined_change n p mat (state_at n p mat k) = false ∨
        (k = fuel ∧ (round_loop n p mat fuel init_state).my_iter_num = fuel)) := by
  rcases round_loop_cases n p mat fuel 0 with ⟨i, _, h2, h3, _, h5⟩ | ⟨_, h5⟩
  · have h5a : round_loop n p mat fuel init_state =
        after_break n p mat (state_at n p mat i) := h5
    refine ⟨i, by omega, fun r hr => ?_, Or.inl h3⟩
    rw [h5a]
    show (local_pass n p mat (state_at n p mat i) r).1 = _
    rw [break_unchanged n p mat _ h3 r hr]
    exact state_at_uniform n p mat i r
  · have h5a : round_loop n p mat fuel init_state = state_at n p mat fuel := by
      have : round_loop n p mat fuel init_state = state_at n p mat (0 + fuel) := h5
      rwa [Nat.zero_add] at this
    refine ⟨fuel, le_refl _, fun r _ => ?_, Or.inr ⟨rfl, ?_⟩⟩
    · rw [h5a]; exact state_at_uniform n p mat fuel r
    · rw [h5a]; exact state_at_iter n p mat fuel

/-! ## The families of the proofs -/

theorem update_atMost {n : Nat} {c : Vec} (hI : AtMostINF n c) (v : Nat) (a : Int)
    (ha : v < n → a ≤ INF) : AtMostINF n (Function.update c v a) := by
  intro x hx
  by_cases hxv : x = v
  · rw [hxv, Function.update_same]; exact ha (hxv ▸ hx)
  · rw [Function.update_noteq hxv]; exact hI x hx

theorem select_atMost {n : Nat} (c : Vec) (cs : Nat → Vec) (p : Nat)
    (h : ∀ r, r < p → AtMostINF n (cs r)) (hc : ∀ x, ∃ r, r < p ∧ c x = cs r x) :
    AtMostINF n c := by
  intro x hx
  obtain ⟨r, hr, e⟩ := hc x
  rw [e]
  exact h r hr x hx

theorem reachedQ_family (n : Nat) (mat : Nat → Int) : StepFamily n n mat (ReachedQ n mat) where
  atMost := fun _ _ h => h.1
  weaken := fun _ _ h => h
  store := by
    intro _ c u v h hu hv hcu hw hlt
    refine ⟨update_atMost h.1 v _ (fun hv1 => le_trans (le_of_lt hlt) (h.1 v hv1)),
      fun x hx hxI => ?_⟩
    by_cases hxv : x = v
    · obtain ⟨W, hW⟩ := h.2 u hu hcu
      rw [hxv]
      exact ⟨_, Walk.snoc hW hv hw⟩
    · rw [Function.update_noteq hxv] at hxI
      exact h.2 x hx hxI
  select := by
    intro _ c cs p h hc
    refine ⟨select_atMost c cs p (fun r hr => (h r hr).1) hc, fun x hx hxI => ?_⟩
    obtain ⟨r, hr, e⟩ := hc x
    rw [e] at hxI
    exact (h r hr).2 x hx hxI

theorem sound_exact {n : Nat} {mat : Nat → Int} {B : Int} (hno : ¬NegCycleReachable n mat)
    (hB : 0 ≤ B)
    (hlo : ∀ u v, u < n → v < n → mat (u * n + v) < INF → -B ≤ mat (u * n + v))
    (hn : n * B < INF) {c : Vec} (hS : Sound n mat c) (u v : Nat) (hu : u < n) (hv : v < n)
    (hcu : c u < INF) (hw : mat (u * n + v) < INF) :
    add32 (c u) (mat (u * n + v)) = c u + mat (u * n + v) := by
  have h1 := sound_ge hno hB hlo hS u hu hcu
  have h2 := hlo u v hu hv hw
  rw [INF_eq] at hn hcu hw
  exact add32_exact (by linarith) (by linarith)

theorem soundQ_family {n : Nat} {mat : Nat → Int} {B : Int} (hno : ¬NegCycleReachable n mat)
    (hB : 0 ≤ B)
    (hlo : ∀ u v, u < n → v < n → mat (u * n + v) < INF → -B ≤ mat (u * n + v))
    (hn : n * B < INF) : StepFamily n n mat (SoundQ n mat) where
  atMost := fun _ _ h => h.1
  weaken := fun _ _ h => h
  store := by
    intro _ c u v h hu hv hcu hw hlt
    rw [sound_exact hno hB hlo hn h.2 u v hu hv hcu hw] at hlt ⊢
    have hI : c u + mat (u * n + v) < INF := lt_of_lt_of_le hlt (h.1 v hv)
    refine ⟨update_atMost h.1 v _ (fun _ => le_of_lt hI), fun x hx hxI => ?_⟩
    by_cases hxv : x = v
    · obtain ⟨l, hl⟩ := h.2 u hu hcu
      rw [hxv, Function.update_same]
      exact ⟨u :: l, SrcWalk.step hl hv hw hI⟩
    · rw [Function.update_noteq hxv] at hxI ⊢
      exact h.2 x hx hxI
  select := by
    intro _ c cs p h hc
    refine ⟨select_atMost c cs p (fun r hr => (h r hr).1) hc, fun x hx hxI => ?_⟩
    obtain ⟨r, hr, e⟩ := hc x
    rw [e] at hxI ⊢
    exact (h r hr).2 x hx hxI

theorem soundQ_exact {n : Nat} {mat : Nat → Int} {B : Int} (hno : ¬NegCycleReachable n mat)
    (hB : 0 ≤ B)
    (hlo : ∀ u v, u < n → v < n → mat (u * n + v) < INF → -B ≤ mat (u * n + v))
    (hn : n * B < INF) : ExactFamily n n mat (SoundQ n mat) :=
  fun _ _ u v h hu hv hcu hw => sound_exact hno hB hlo hn h.2 u v hu hv hcu hw

theorem low_exact {n m : Nat} {mat : Nat → Int} {B : Int} (hB : 0 ≤ B)
    (hlo : ∀ u v, u < n → v < m → mat (u * n + v) < INF → -B ≤ mat (u * n + v))
    (j : Nat) {c : Vec} (h : LowQ n B (j + 1) c) (u v : Nat) (hu : u < n) (hv : v < m)
    (hcu : c u < INF) (hw : mat (u * n + v) < INF) :
    add32 (c u) (mat (u * n + v)) = c u + mat (u * n + v) ∧
      INT_MIN + j * B ≤ c u + mat (u * n + v) := by
  have h1 := h.2 u hu
  have h2 := hlo u v hu hv hw
  have h3 : (0 : Int) ≤ j * B := mul_nonneg (Int.ofNat_nonneg j) hB
  push_cast at h1
  unfold INT_MIN at h1 ⊢
  rw [INF_eq] at hcu hw
  exact ⟨add32_exact (by linarith) (by linarith), by linarith⟩

theorem lowQ_family {n m : Nat} {mat : Nat → Int} {B : Int} (hB : 0 ≤ B)
    (hlo : ∀ u v, u < n → v < m → mat (u * n + v) < INF → -B ≤ mat (u * n + v)) :
    StepFamily n m mat (LowQ n B) where
  atMost := fun _ _ h => h.1
  weaken := by
    intro j c h
    refine ⟨h.1, fun x hx => ?_⟩
    have h1 := h.2 x hx
    push_cast at h1
    linarith
  store := by
    intro j c u v h hu hv hcu hw hlt
    obtain ⟨e, hge⟩ := low_exact hB hlo j h u v hu hv hcu hw
    rw [e] at hlt ⊢
    refine ⟨update_atMost h.1 v _ (fun hv1 => le_trans (le_of_lt hlt) (h.1 v hv1)), fun x hx => ?_⟩
    by_cases hxv : x = v
    · rw [hxv, Function.update_same]
      exact hge
    · rw [Function.update_noteq hxv]
      have h1 := h.2 x hx
      push_cast at h1
      linarith
  select := by
    intro j c cs p h hc
    refine ⟨select_atMost c cs p (fun r hr => (h r hr).1) hc, fun x hx => ?_⟩
    obtain ⟨r, hr, e⟩ := hc x
    rw [e]
    exact (h r hr).2 x hx

theorem lowQ_exact {n m : Nat} {mat : Nat → Int} {B : Int} (hB : 0 ≤ B)
    (hlo : ∀ u v, u < n → v < m → mat (u * n + v) < INF → -B ≤ mat (u * n + v)) :
    ExactFamily n m mat (LowQ n B) :=
  fun j _ u v h hu hv hcu hw => (low_exact hB hlo j h u v hu hv hcu hw).1

theorem ref_relax_mono (best du : Option Int) (w W : Int) (h : OLe best W) :
    OLe (ref_relax best du w) W := by
  obtain ⟨b, rfl, hb⟩ := h
  cases du with
  | none => exact ⟨b, rfl, hb⟩
  | some a =>
    show OLe (if a + w < b then some (a + w) else some b) W
    split_ifs with h1
    · exact ⟨a + w, rfl, le_trans (le_of_lt h1) hb⟩
    · exact ⟨b, rfl, hb⟩

theorem ref_relax_progress (best du : Option Int) (w W0 : Int) (h : OLe du W0) :
    OLe (ref_relax best du w) (W0 + w) := by
  obtain ⟨a, rfl, ha⟩ := h
  cases best with
  | none => exact ⟨a + w, rfl, by linarith⟩
  | some b =>
    show OLe (if a + w < b then some (a + w) else some b) (W0 + w)
    split_ifs with h1
    · exact ⟨a + w, rfl, by linarith⟩
    · exact ⟨b, rfl, by linarith⟩

theorem ref_relax_origin (best du : Option Int) (w x : Int)
    (h : ref_relax best du w = some x) : best = some x ∨ ∃ a, du = some a ∧ x = a + w := by
  cases du with
  | none => exact Or.inl h
  | some a =>
    cases best with
    | none =>
      have h1 : some (a + w) = some x := h
      exact Or.inr ⟨a, rfl, (Option.some.inj h1).symm⟩
    | some b =>
      have h1 : (if a + w < b then some (a + w) else some b) = some x := h
      split_ifs at h1 with h2
      · exact Or.inr ⟨a, rfl, (Option.some.inj h1).symm⟩
      · exact Or.inl h1

theorem ref_step_mono (n : Nat) (mat : Nat → Int) (d : Nat → Option Int) (v : Nat) (W : Int)
    (h : OLe (d v) W) : OLe (ref_step n mat d v) W :=
  foldl_inv (fun best => OLe best W) _ (List.range n) (d v) h
    (fun best u _ hb => by
      show OLe (if mat (u * n + v) < INF then ref_relax best (d u) (mat (u * n + v))
        else best) W
      split_ifs
      · exact ref_relax_mono best (d u) _ W hb
      · exact hb)

theorem ref_step_progress (n : Nat) (mat : Nat → Int) (d : Nat → Option Int) (u v : Nat)
    (W0 : Int) (hu : u < n) (hw : mat (u * n + v) < INF) (h : OLe (d u) W0) :
    OLe (ref_step n mat d v) (W0 + mat (u * n + v)) :=
  foldl_each (fun _ => True)
    (fun u best => mat (u * n + v) < INF → OLe (d u) W0 →
      OLe best (W0 + mat (u * n + v)))
    (fun best u => if mat (u * n + v) < INF then ref_relax best (d u) (mat (u * n + v))
      else best)
    (List.range n) (d v) trivial (fun _ _ _ _ => trivial)
    (fun best u1 _ _ hw1 h1 => by
      show OLe (if mat (u1 * n + v) < INF then ref_relax best (d u1) (mat (u1 * n + v))
        else best) _
      rw [if_pos hw1]
      exact ref_relax_progress best (d u1) _ W0 h1)
    (fun best u1 u2 _ _ hR hw2 h2 => by
      show OLe (if mat (u1 * n + v) < INF then ref_relax best (d u1) (mat (u1 * n + v))
        else best) _
      split_ifs
      · exact ref_relax_mono best (d u1) _ _ (hR hw2 h2)
      · exact hR hw2 h2)
    u (List.mem_range.2 hu) hw h

theorem ref_step_origin (n : Nat) (mat : Nat → Int) (d : Nat → Option Int) (v : Nat) (x : Int)
    (h : ref_step n mat d v = some x) :
    d v = some x ∨
      ∃ u a, u < n ∧ mat (u * n + v) < INF ∧ d u = some a ∧ x = a + mat (u * n + v) :=
  foldl_inv (fun best => ∀ x, best = some x → d v = some x ∨
      ∃ u a, u < n ∧ mat (u * n + v) < INF ∧ d u = some a ∧ x = a + mat (u * n + v))
    (fun best u => if mat (u * n + v) < INF then ref_relax best (d u) (mat (u * n + v))
      else best)
    (List.range n) (d v) (fun _ hx => Or.inl hx)
    (fun best u hu hb y hy => by
      have hy1 : (if mat (u * n + v) < INF then ref_relax best (d u) (mat (u * n + v))
        else best) = some y := hy
      split_ifs at hy1 with hw
      · rcases ref_relax_origin best (d u) _ y hy1 with h1 | ⟨a, ha, e⟩
        · exact hb y h1
        · exact Or.inr ⟨u, a, List.mem_range.1 hu, hw, ha, e⟩
      · exact hb y hy1)
    x h

theorem ref_sound (n : Nat) (mat : Nat → Int) :
    ∀ k v x, v < n → ref_dist n mat k v = some x → Walk n mat 0 v x := by
  intro k
  induction k with
  | zero =>
    intro v x hv h
    have h1 : (if v = 0 then some (0 : Int) else none) = some x := h
    split_ifs at h1 with h0
    · subst h0
      rw [← Option.some.inj h1]
      exact Walk.nil 0 hv
  | succ k ih =>
    intro v x hv h
    rcases ref_step_origin n mat (ref_dist n mat k) v x h with h1 | ⟨u, a, hu, hw, ha, e⟩
    · exact ih v x hv h1
    · rw [e]
      exact Walk.snoc (ih u a hu ha) hv hw

theorem ref_bound (n : Nat) (mat : Nat → Int) :
    ∀ k v l W, SrcWalk n mat (v :: l) W → l.length ≤ k → OLe (ref_dist n mat k v) W := by
  intro k
  induction k with
  | zero =>
    intro v l W h hlen
    have hl : l = [] := List.length_eq_zero.1 (Nat.le_zero.1 hlen)
    subst hl
    cases h
    exact ⟨0, rfl, le_refl _⟩
  | succ k ih =>
    intro v l W h hlen
    cases h with
    | src h0 =>
      exact ref_step_mono n mat _ 0 0 (ih 0 [] 0 (SrcWalk.src h0) (Nat.zero_le _))
    | @step u _ t W0 h0 hv hw hlt =>
      have hu : u < n := srcwalk_mem_lt h0 u (List.mem_cons_self u t)
      exact ref_step_progress n mat _ u v W0 hu hw (ih u t W0 h0 (by simpa using hlen))

/-! ## The result of a run -/

theorem code_final_char {n : Nat} {mat : Nat → Int} {B : Int} (p : Nat) (hp : 1 ≤ p)
    (hno : ¬NegCycleReachable n mat) (hB : 0 ≤ B)
    (hlo : ∀ u v, u < n → v < n → mat (u * n + v) < INF → -B ≤ mat (u * n + v))
    (hn : n * B < INF) :
    AtMostINF n ((round_loop n p mat (n - 1) init_state).my_dist 0) ∧
    Sound n mat ((round_loop n p mat (n - 1) init_state).my_dist 0) ∧
    (∀ v t W, SrcWalk n mat (v :: t) W →
      (round_loop n p mat (n - 1) init_state).my_dist 0 v ≤ W) := by
  obtain ⟨k, _, hunif, hcase⟩ := round_loop_final n p mat (n - 1)
  have hQ := soundQ_family hno hB hlo hn
  have hE := soundQ_exact hno hB hlo hn
  have i0 : ∀ j, SoundQ n mat j init_dist :=
    fun _ => ⟨(init_inv n mat).1, (init_inv n mat).2.1⟩
  have hs : SoundQ n mat 1 ((state_at n p mat k).my_dist 0) :=
    family_state hQ p hp k 1 (i0 _)
  have hb : Bound n mat k ((state_at n p mat k).my_dist 0) :=
    family_bound hQ hE p hp k 0 (i0 _)
  rw [hunif 0 hp]
  refine ⟨hs.1, hs.2, fun v t W h => ?_⟩
  rcases hcase with hc | ⟨hk, _⟩
  · exact fix_bound (break_fix hE p hp k hc hs) (bound_weaken hb (Nat.zero_le _)) h v t rfl
  · rw [hk] at hb ⊢
    exact budget_bound hno hb h

theorem walk_potential {n : Nat} {mat : Nat → Int} (pot : Nat → Int)
    (hpot : ∀ u, u < n → ∀ v, v < n → mat (u * n + v) < INF →
      pot v ≤ pot u + mat (u * n + v))
    {a b : Nat} {W : Int} (h : Walk n mat a b W) : pot b ≤ pot a + W := by
  induction h with
  | nil _ => simp
  | snoc h0 hv hw ih =>
    have := hpot _ (walk_end_lt h0) _ hv hw
    linarith

theorem potential_no_cycle {n : Nat} {mat : Nat → Int} (pot : Nat → Int)
    (hpot : ∀ u, u < n → ∀ v, v < n → mat (u * n + v) < INF →
      pot v ≤ pot u + mat (u * n + v)) : ¬NegCycleReachable n mat := by
  rintro ⟨c, W, C, _, hc, hneg⟩
  have := walk_potential pot hpot hc
  linarith

theorem scenario2_no_cycle : ¬NegCycleReachable 3 scenario2 :=
  potential_no_cycle (fun v => [0, 1, 2].getD v 0) (by decide)

/-- C1 as stated fails: `capped_path` (the path `0 → 1 → 2 → 3` with weights 999999, 5 and
-10) has no cycle at all, the reference reports the distances 1000004 and 999994 for the
vertices 2 and 3, and the run with one rank reports `INF` for both: the sum
`999999 + 5` is not below the initial entry `INF` of vertex 2, so it is never stored. -/
theorem capped_path_differs :
    ¬NegCycleReachable 4 capped_path ∧
    (bellman_ford 1 4 capped_path).2 = [0, 999999, 1000000, 1000000] ∧
    reference_bellman_ford 4 capped_path = [0, 999999, 1000004, 999994] :=
  ⟨potential_no_cycle (fun v => [0, 999999, 1000004, 999994].getD v 0) (by decide),
    by decide, by decide⟩

/-- C1 amended: for `n ≥ 1`, `p ≥ 1`, a matrix without a negative-weight cycle reachable
from vertex 0 and a bound `B` with `n * B < INF` such that every edge weight lies in
`[-B, B]`, the distance vector that rank 0 holds after the round loop (`p` ranks relaxing
their own columns in place, `MPI_MIN` merge per round, at most `n - 1` rounds) equals the
vector of the single-worker reference Bellman-Ford on the same matrix. -/
theorem bellman_ford_eq_reference (n p : Nat) (mat : Nat → Int) (B : Int) (_hn : 1 ≤ n)
    (hp : 1 ≤ p) (hno : ¬NegCycleReachable n mat)
    (hw : ∀ u, u < n → ∀ v, v < n → mat (u * n + v) < INF →
      -B ≤ mat (u * n + v) ∧ mat (u * n + v) ≤ B)
    (hB : 0 ≤ B) (hnB : n * B < INF) :
    (bellman_ford p n mat).2 = reference_bellman_ford n mat := by
  have hlo : ∀ u v, u < n → v < n → mat (u * n + v) < INF → -B ≤ mat (u * n + v) :=
    fun u v hu hv h => (hw u hu v hv h).1
  have hhi : ∀ u v, u < n → v < n → mat (u * n + v) < INF → mat (u * n + v) ≤ B :=
    fun u v hu hv h => (hw u hu v hv h).2
  have hc := code_final_char p hp hno hB hlo hnB
  show (List.range n).map _ = (List.range n).map _
  apply List.map_congr_left
  intro v hv
  have hvn : v < n := List.mem_range.1 hv
  have key : ∀ {y : Int} {t : List Nat}, SrcWalk n mat (v :: t) y →
      ∃ x, ref_dist n mat (n - 1) v = some x ∧ x ≤ y := by
    intro y t h
    obtain ⟨t1, W1, h1, hnd, hle⟩ := shorten_cons hno h
    have hlen := nodup_length_le hnd (srcwalk_mem_lt h1)
    obtain ⟨x, hx, hxle⟩ := ref_bound n mat (n - 1) v t1 W1 h1 (by simp at hlen; omega)
    exact ⟨x, hx, le_trans hxle hle⟩
  show (round_loop n p mat (n - 1) init_state).my_dist 0 v =
    (ref_dist n mat (n - 1) v).getD INF
  cases hr : ref_dist n mat (n - 1) v with
  | none =>
    show _ = INF
    by_contra hne
    obtain ⟨l, hl⟩ := hc.2.1 v hvn (lt_of_le_of_ne (hc.1 v hvn) hne)
    obtain ⟨x, hx, _⟩ := key hl
    rw [hr] at hx
    exact Option.noConfusion hx
  | some x =>
    show _ = x
    obtain ⟨t, W1, h1, _, hle⟩ :=
      walk_to_simple hno hB hhi hnB (ref_sound n mat (n - 1) v x hvn hr) rfl
    have hcx : (round_loop n p mat (n - 1) init_state).my_dist 0 v ≤ W1 := hc.2.2 v t W1 h1
    obtain ⟨l, hl⟩ := hc.2.1 v hvn (lt_of_le_of_lt hcx (srcwalk_lt h1))
    obtain ⟨x1, hx1, hx1le⟩ := key hl
    rw [hr] at hx1
    have e : x = x1 := Option.some.inj hx1
    rw [← e] at hx1le
    exact le_antisymm (le_trans hcx hle) hx1le

theorem bellman_ford_eq_reference_witness :
    (1 ≤ 3 ∧ 1 ≤ 2 ∧ ¬NegCycleReachable 3 scenario2 ∧
      (∀ u, u < 3 → ∀ v, v < 3 → scenario2 (u * 3 + v) < INF →
        -(5 : Int) ≤ scenario2 (u * 3 + v) ∧ scenario2 (u * 3 + v) ≤ 5) ∧
      (0 : Int) ≤ 5 ∧ ((3 : Nat) : Int) * 5 < INF) ∧
    (bellman_ford 2 3 scenario2).2 = reference_bellman_ford 3 scenario2 ∧
    reference_bellman_ford 3 scenario2 = [0, 1, 2] :=
  ⟨⟨by decide, by decide, scenario2_no_cycle, by decide, by decide, by decide⟩,
    bellman_ford_eq_reference 3 2 scenario2 5 (by decide) (by decide) scenario2_no_cycle
      (by decide) (by decide) (by decide),
    by decide⟩

/-- C3 fails on the code: in `no_cycle` (edges `0 → 1` of weight 999999 and `2 → 1` of
weight -2, no cycle at all) the run with one rank sets the flag to `true`: the detection
pass also tests the source 2, whose distance is `INF`, and `INF - 2 < 999999`. -/
theorem no_cycle_flagged :
    (bellman_ford 1 3 no_cycle).1 = true ∧ ¬NegCycleReachable 3 no_cycle :=
  ⟨by decide, potential_no_cycle (fun v => [0, 999999, 1000001].getD v 0) (by decide)⟩

/-- C4 fails on the code: on `lone_loop` with `n = 4` the run with `p = 5 > n` ranks sets
the flag to `true`, while the run with `p = 1` leaves it `false` and reports distances. -/
theorem more_ranks_than_vertices_differs :
    bellman_ford 5 4 lone_loop = (true, [0, 1, 2, 1000000]) ∧
    bellman_ford 1 4 lone_loop = (false, [0, 1, 2, 1000000]) :=
  ⟨by decide, by decide⟩

/-! ## How the round loop is left -/

theorem loop_exit_cases (n p : Nat) (mat : Nat → Int) (fuel : Nat) :
    (∃ i, i < fuel ∧ combined_change n p mat (state_at n p mat i) = false ∧
        (∀ j, j < i → combined_change n p mat (state_at n p mat j) = true) ∧
        round_loop n p mat fuel init_state = after_break n p mat (state_at n p mat i) ∧
        (round_loop n p mat fuel init_state).my_iter_num = i + 1) ∨
      ((∀ j, j < fuel → combined_change n p mat (state_at n p mat j) = true) ∧
        round_loop n p mat fuel init_state = state_at n p mat fuel ∧
        (round_loop n p mat fuel init_state).my_iter_num = fuel) := by
  rcases round_loop_cases n p mat fuel 0 with ⟨i, _, h2, h3, h4, h5⟩ | ⟨h4, h5⟩
  · have h5a : round_loop n p mat fuel init_state =
        after_break n p mat (state_at n p mat i) := h5
    refine Or.inl ⟨i, by omega, h3, fun j hj => h4 j (Nat.zero_le _) hj, h5a, ?_⟩
    rw [h5a]
    show (state_at n p mat i).my_iter_num + 1 = i + 1
    rw [state_at_iter]
  · have h5a : round_loop n p mat fuel init_state = state_at n p mat fuel := by
      have : round_loop n p mat fuel init_state = state_at n p mat (0 + fuel) := h5
      rwa [Nat.zero_add] at this
    refine Or.inr ⟨fun j hj => h4 j (Nat.zero_le _) (by omega), h5a, ?_⟩
    rw [h5a, state_at_iter]

theorem state_at_le_INF (n p : Nat) (mat : Nat → Int) (k r x : Nat) :
    (state_at n p mat k).my_dist r x ≤ INF := by
  induction k generalizing r with
  | zero =>
    show init_dist x ≤ INF
    unfold init_dist
    split_ifs
    · decide
    · exact le_refl _
  | succ k ih =>
    exact le_trans (merge_le n p mat (state_at n p mat k) r x (state_at_uniform n p mat k r))
      (ih r)

theorem final_le_INF (n p : Nat) (mat : Nat → Int) (fuel r x : Nat) :
    (round_loop n p mat fuel init_state).my_dist r x ≤ INF := by
  rcases loop_exit_cases n p mat fuel with ⟨i, _, _, _, h5, _⟩ | ⟨_, h5, _⟩
  · rw [h5]
    exact le_trans (local_pass_le n p mat (state_at n p mat i) r x)
      (state_at_le_INF n p mat i r x)
  · rw [h5]
    exact state_at_le_INF n p mat fuel r x

theorem getD_map_range (n : Nat) (f : Nat → Int) (i : Nat) (hi : i < n) :
    ((List.range n).map f).getD i 0 = f i := by
  simp [List.getD_eq_getElem?_getD, hi]

theorem clamp_id (n : Nat) (f : Nat → Int) (hf : ∀ i, i < n → f i ≤ INF) :
    ((List.range n).map fun i =>
      if ((List.range n).map f).getD i 0 > INF then INF else ((List.range n).map f).getD i 0)
      = (List.range n).map f := by
  apply List.map_congr_left
  intro i hi
  have hi1 : i < n := List.mem_range.1 hi
  rw [getD_map_range n f i hi1]
  rw [if_neg (not_lt.2 (hf i hi1))]

theorem walk_closed {n : Nat} {mat : Nat → Int} (inS : Nat → Prop) {a b : Nat} {W : Int}
    (ha : inS a)
    (hcl : ∀ u, u < n → inS u → ∀ v, v < n → mat (u * n + v) < INF → inS v)
    (h : Walk n mat a b W) : inS b := by
  induction h with
  | nil _ => exact ha
  | snoc h0 hv hw ih => exact hcl _ (walk_end_lt h0) ih _ hv hw

theorem init_reached (n : Nat) (mat : Nat → Int) : Reached n mat init_dist := by
  intro v hv hvI
  unfold init_dist at hvI
  by_cases h0 : v = 0
  · subst h0
    exact ⟨0, Walk.nil 0 hv⟩
  · simp [h0] at hvI

theorem final_unreachable (n p : Nat) (mat : Nat → Int) (hp : 1 ≤ p) (v : Nat) (hv : v < n)
    (hun : ∀ W, ¬Walk n mat 0 v W) :
    (round_loop n p mat (n - 1) init_state).my_dist 0 v = INF := by
  obtain ⟨k, _, hunif, _⟩ := round_loop_final n p mat (n - 1)
  have hs : ReachedQ n mat 0 ((state_at n p mat k).my_dist 0) :=
    family_state (reachedQ_family n mat) p hp k 0 ⟨(init_inv n mat).1, init_reached n mat⟩
  rw [hunif 0 hp]
  apply le_antisymm (hs.1 v hv)
  by_contra hlt
  obtain ⟨W, hW⟩ := hs.2 v hv (not_le.1 hlt)
  exact hun W hW

theorem lone_loop_unreachable : ∀ W, ¬Walk 4 lone_loop 0 3 W := by
  intro W h
  have : (3 : Nat) < 3 :=
    walk_closed (fun v => v < 3) (by decide) (by decide) h
  omega

/-- C11: for `p ≥ 1` and a vertex `v < n` that no walk from vertex 0 reaches along edges of
weight below `INF`, a run that reports no negative cycle ends with `dist[v] = INF`, and
`print_result` writes exactly 1000000 for `v`. -/
theorem unreachable_reported_as_INF (n p : Nat) (mat : Nat → Int) (v : Nat) (hp : 1 ≤ p)
    (hv : v < n) (hun : ∀ W, ¬Walk n mat 0 v W) (hflag : (bellman_ford p n mat).1 = false) :
    (bellman_ford p n mat).2[v]? = some INF ∧
    ∃ lines, print_result n (bellman_ford p n mat).1 (bellman_ford p n mat).2 =
      Printed.distances lines ∧ lines[v]? = some 1000000 := by
  have hfin := final_unreachable n p mat hp v hv hun
  have hval : (bellman_ford p n mat).2[v]? = some INF := by
    show ((List.range n).map ((round_loop n p mat (n - 1) init_state).my_dist 0))[v]? = _
    simp [hv, hfin]
  refine ⟨hval, (bellman_ford p n mat).2, ?_, hval⟩
  rw [hflag]
  show Printed.distances _ = _
  congr 1
  exact clamp_id n _ (fun i _ => final_le_INF n p mat (n - 1) 0 i)

theorem unreachable_reported_as_INF_witness :
    (1 ≤ 1 ∧ 3 < 4 ∧ (∀ W, ¬Walk 4 lone_loop 0 3 W) ∧ (bellman_ford 1 4 lone_loop).1 = false) ∧
    (bellman_ford 1 4 lone_loop).2[3]? = some INF ∧
    ∃ lines, print_result 4 (bellman_ford 1 4 lone_loop).1 (bellman_ford 1 4 lone_loop).2 =
      Printed.distances lines ∧ lines[3]? = some 1000000 :=
  ⟨⟨by decide, by decide, lone_loop_unreachable, by decide⟩,
    unreachable_reported_as_INF 4 1 lone_loop 3 (by decide) (by decide) lone_loop_unreachable
      (by decide)⟩

/-- C13 as stated fails: for `n = 2`, `p = 1` and the matrix without edges, the only round
ends in the no-change `break`, and the detection pass is executed all the same, because
`my_iter_num` was incremented before the `break` and equals `n - 1 = 1`. -/
theorem detection_after_break :
    combined_change 2 1 no_edges (state_at 2 1 no_edges 0) = false ∧
    round_loop 2 1 no_edges (2 - 1) init_state =
      after_break 2 1 no_edges (state_at 2 1 no_edges 0) ∧
    detection_executed 1 2 no_edges = true := by
  refine ⟨by decide, ?_, by decide⟩
  have h : combined_change 2 1 no_edges init_state = false := by decide
  simp [round_loop, state_at, h]

/-- C13 amended: for `n ≥ 1` the detection pass is executed exactly when
`my_iter_num == n - 1` holds after the loop, that is, exactly when the combined change flag
was true in each of the first `n - 2` rounds (round `j + 1` starts from `state_at j`); a
`break` in an earlier round keeps the detection pass from running, a `break` in round
`n - 1` does not. -/
theorem detection_gate (n p : Nat) (mat : Nat → Int) (hn : 1 ≤ n) :
    detection_executed p n mat = true ↔
      ∀ j, j + 2 < n → combined_change n p mat (state_at n p mat j) = true := by
  unfold detection_executed
  rw [decide_eq_true_eq]
  rcases loop_exit_cases n p mat (n - 1) with ⟨i, h1, h2, h3, _, h5⟩ | ⟨h3, _, h5⟩
  · rw [h5]
    constructor
    · intro he j hj
      exact h3 j (by omega)
    · intro hall
      by_contra hne
      have hi : i + 2 < n := by omega
      have := hall i hi
      rw [h2] at this
      exact Bool.false_ne_true this
  · rw [h5]
    constructor
    · intro _ j hj
      exact h3 j (by omega)
    · intro _
      omega

theorem detection_gate_witness :
    1 ≤ 4 ∧ (detection_executed 5 4 lone_loop = true ↔
      ∀ j, j + 2 < 4 → combined_change 4 5 lone_loop (state_at 4 5 lone_loop j) = true) :=
  ⟨by decide, detection_gate 4 5 lone_loop (by decide)⟩

/-- C14: the round loop executes at most `n - 1` rounds, and the number of rounds executed
(`my_iter_num` after the loop) is the number, counted from 1, of the first round whose
combined change flag is false (round `i + 1` starts from `state_at i`), or `n - 1` when the
flag is true in all `n - 1` rounds. -/
theorem round_count (n p : Nat) (mat : Nat → Int) :
    (round_loop n p mat (n - 1) init_state).my_iter_num ≤ n - 1 ∧
    ((∃ i, i < n - 1 ∧ combined_change n p mat (state_at n p mat i) = false ∧
        (∀ j, j < i → combined_change n p mat (state_at n p mat j) = true) ∧
        (round_loop n p mat (n - 1) init_state).my_iter_num = i + 1) ∨
      ((∀ j, j < n - 1 → combined_change n p mat (state_at n p mat j) = true) ∧
        (round_loop n p mat (n - 1) init_state).my_iter_num = n - 1)) := by
  rcases loop_exit_cases n p mat (n - 1) with ⟨i, h1, h2, h3, _, h5⟩ | ⟨h3, _, h5⟩
  · exact ⟨by omega, Or.inl ⟨i, h1, h2, h3, h5⟩⟩
  · exact ⟨by omega, Or.inr ⟨h3, h5⟩⟩

/-- C17: every entry of the array of every rank is at most `INF` after the initialisation,
after any number of merged rounds, after every local pass, after every merge and when the
loop is left; hence the clamp of `print_result` writes the values of `bellman_ford`
unchanged. -/
theorem entries_at_most_INF (n p : Nat) (mat : Nat → Int) (k r x : Nat) :
    init_dist x ≤ INF ∧
    (state_at n p mat k).my_dist r x ≤ INF ∧
    (local_pass n p mat (state_at n p mat k) r).1 x ≤ INF ∧
    (after_merge n p mat (state_at n p mat k)).my_dist r x ≤ INF ∧
    (round_loop n p mat (n - 1) init_state).my_dist r x ≤ INF ∧
    print_result n false (bellman_ford p n mat).2 =
      Printed.distances (bellman_ford p n mat).2 := by
  refine ⟨state_at_le_INF n p mat 0 0 x, state_at_le_INF n p mat k r x,
    le_trans (local_pass_le n p mat _ r x) (state_at_le_INF n p mat k r x),
    state_at_le_INF n p mat (k + 1) r x, final_le_INF n p mat (n - 1) r x, ?_⟩
  show Printed.distances _ = _
  congr 1
  exact clamp_id n _ (fun i _ => final_le_INF n p mat (n - 1) 0 i)

/-! ## The run without the skip, for weights that are not negative -/

theorem relax_row_noskip_eq (n : Nat) (mat : Nat → Int) (b e u : Nat) (s : Vec × Bool)
    (hnn : ∀ u v, u < n → v < n → mat (u * n + v) < INF → 0 ≤ mat (u * n + v))
    (hu : u < n) (he : e ≤ n) (hI : AtMostINF n s.1) :
    relax_row_noskip n mat b e u s = relax_row n mat b e u s := by
  unfold relax_row_noskip relax_row
  split_ifs with h
  · refine foldl_inv (fun s1 => s1 = s) _ _ s rfl (fun s1 v hv hs1 => ?_)
    have hv2 : v < n := lt_of_lt_of_le (mem_owned hv).2 he
    show relax_edge n mat u v s1 = s
    rw [hs1]
    refine relax_edge_quiet n mat u v s (fun h1 h2 => ?_)
    have h3 := hnn u v hu hv2 h1
    have h4 := hI v hv2
    rw [h] at h2
    rw [INF_eq] at h1 h2 h4
    rw [add32_exact (by linarith) (by linarith)] at h2
    linarith
  · rfl

theorem relax_pass_noskip_eq (n : Nat) (mat : Nat → Int) (b e : Nat) (d : Vec)
    (hnn : ∀ u v, u < n → v < n → mat (u * n + v) < INF → 0 ≤ mat (u * n + v))
    (he : e ≤ n) (hI : AtMostINF n d) :
    relax_pass_noskip n mat b e d = relax_pass n mat b e d :=
  foldl_congr_inv (fun s1 => AtMostINF n s1.1) _ _ (List.range n) (d, false) hI
    (fun s1 u hu hs1 => ⟨relax_row_noskip_eq n mat b e u s1 hnn (List.mem_range.1 hu) he hs1,
      fun x hx => le_trans (relax_row_le n mat b e u s1 x) (hs1 x hx)⟩)

theorem allreduce_min_congr (p : Nat) (hp : 1 ≤ p) (ds es : Nat → Vec)
    (h : ∀ r, r < p → ds r = es r) : allreduce_min p ds = allreduce_min p es := by
  funext v
  unfold allreduce_min
  rw [h 0 hp]
  exact foldl_congr_inv (fun _ => True) _ _ (List.range p) (es 0 v) trivial
    (fun acc r hr _ => ⟨by rw [h r (List.mem_range.1 hr)], trivial⟩)

theorem allreduce_lor_congr (p : Nat) (f g : Nat → Bool) (h : ∀ r, r < p → f r = g r) :
    allreduce_lor p f = allreduce_lor p g := by
  unfold allreduce_lor
  rw [Bool.eq_iff_iff, List.any_eq_true, List.any_eq_true]
  constructor
  · rintro ⟨r, hr, hf⟩
    exact ⟨r, hr, by rw [← h r (List.mem_range.1 hr)]; exact hf⟩
  · rintro ⟨r, hr, hg⟩
    exact ⟨r, hr, by rw [h r (List.mem_range.1 hr)]; exact hg⟩

theorem local_pass_noskip_eq (n p : Nat) (mat : Nat → Int) (hp : 1 ≤ p)
    (hnn : ∀ u v, u < n → v < n → mat (u * n + v) < INF → 0 ≤ mat (u * n + v))
    (k r : Nat) (hr : r < p) :
    local_pass_noskip n p mat (state_at n p mat k) r =
      local_pass n p mat (state_at n p mat k) r :=
  relax_pass_noskip_eq n mat _ _ _ hnn (range_end_le n p r hp hr)
    (fun x _ => state_at_le_INF n p mat k r x)

theorem combined_change_noskip_eq (n p : Nat) (mat : Nat → Int) (hp : 1 ≤ p)
    (hnn : ∀ u v, u < n → v < n → mat (u * n + v) < INF → 0 ≤ mat (u * n + v)) (k : Nat) :
    combined_change_noskip n p mat (state_at n p mat k) =
      combined_change n p mat (state_at n p mat k) :=
  allreduce_lor_congr p _ _ (fun r hr => by rw [local_pass_noskip_eq n p mat hp hnn k r hr])

theorem after_merge_noskip_eq (n p : Nat) (mat : Nat → Int) (hp : 1 ≤ p)
    (hnn : ∀ u v, u < n → v < n → mat (u * n + v) < INF → 0 ≤ mat (u * n + v)) (k : Nat) :
    after_merge_noskip n p mat (state_at n p mat k) = state_at n p mat (k + 1) := by
  show after_merge_noskip n p mat (state_at n p mat k) =
    after_merge n p mat (state_at n p mat k)
  unfold after_merge_noskip after_merge
  rw [allreduce_min_congr p hp _ _
    (fun r hr => by rw [local_pass_noskip_eq n p mat hp hnn k r hr])]

theorem state_at_noskip_eq (n p : Nat) (mat : Nat → Int) (hp : 1 ≤ p)
    (hnn : ∀ u v, u < n → v < n → mat (u * n + v) < INF → 0 ≤ mat (u * n + v)) (k : Nat) :
    state_at_noskip n p mat k = state_at n p mat k := by
  induction k with
  | zero => rfl
  | succ k ih =>
    show after_merge_noskip n p mat (state_at_noskip n p mat k) = _
    rw [ih]
    exact after_merge_noskip_eq n p mat hp hnn k

theorem round_loop_noskip_agree (n p : Nat) (mat : Nat → Int) (hp : 1 ≤ p)
    (hnn : ∀ u v, u < n → v < n → mat (u * n + v) < INF → 0 ≤ mat (u * n + v))
    (fuel : Nat) :
    ∀ k, (round_loop_noskip n p mat fuel (state_at n p mat k)).my_iter_num =
        (round_loop n p mat fuel (state_at n p mat k)).my_iter_num ∧
      ∀ r, r < p → (round_loop_noskip n p mat fuel (state_at n p mat k)).my_dist r =
        (round_loop n p mat fuel (state_at n p mat k)).my_dist r := by
  induction fuel with
  | zero => intro k; exact ⟨rfl, fun _ _ => rfl⟩
  | succ f ih =>
    intro k
    have hc := combined_change_noskip_eq n p mat hp hnn k
    by_cases hch : combined_change n p mat (state_at n p mat k) = true
    · have e1 : round_loop_noskip n p mat (f + 1) (state_at n p mat k) =
          round_loop_noskip n p mat f (state_at n p mat (k + 1)) := by
        simp [round_loop_noskip, hc, hch, after_merge_noskip_eq n p mat hp hnn k]
      have e2 : round_loop n p mat (f + 1) (state_at n p mat k) =
          round_loop n p mat f (state_at n p mat (k + 1)) := by
        simp [round_loop, hch, state_at]
      rw [e1, e2]
      exact ih (k + 1)
    · have hch2 : combined_change n p mat (state_at n p mat k) = false := by simpa using hch
      have e1 : round_loop_noskip n p mat (f + 1) (state_at n p mat k) =
          after_break_noskip n p mat (state_at n p mat k) := by
        simp [round_loop_noskip, hc, hch2]
      have e2 : round_loop n p mat (f + 1) (state_at n p mat k) =
          after_break n p mat (state_at n p mat k) := by
        simp [round_loop, hch2]
      rw [e1, e2]
      refine ⟨rfl, fun r hr => ?_⟩
      show (local_pass_noskip n p mat (state_at n p mat k) r).1 =
        (local_pass n p mat (state_at n p mat k) r).1
      rw [local_pass_noskip_eq n p mat hp hnn k r hr]

/-- C12 as stated fails: on `stray_edge` (one edge `1 → 2` of weight -1, vertex 1 not
reachable) with one rank, the run without the skip relaxes `INF - 1 < INF` in round 1,
reports a change there and ends with `dist[2] = 999999`; the run with the skip reports no
change and ends with `dist[2] = INF`. -/
theorem skip_changes_result :
    bellman_ford_noskip 1 3 stray_edge = (false, [0, 1000000, 999999]) ∧
    bellman_ford 1 3 stray_edge = (false, [0, 1000000, 1000000]) ∧
    combined_change_noskip 3 1 stray_edge (state_at_noskip 3 1 stray_edge 0) = true ∧
    combined_change 3 1 stray_edge (state_at 3 1 stray_edge 0) = false :=
  ⟨by decide, by decide, by decide, by decide⟩

/-- C12 amended: for `p ≥ 1` and a matrix in which no edge (entry below `INF`) has a
negative weight, the run with the skip and the run with the skip removed produce the same
negative-cycle verdict and distance vector, reach the same state after every number of
merged rounds and have the same combined change flag in every round. -/
theorem skip_is_optimisation (n p : Nat) (mat : Nat → Int) (hp : 1 ≤ p)
    (hnn : ∀ u v, u < n → v < n → mat (u * n + v) < INF → 0 ≤ mat (u * n + v)) :
    bellman_ford_noskip p n mat = bellman_ford p n mat ∧
    ∀ k, state_at_noskip n p mat k = state_at n p mat k ∧
      combined_change_noskip n p mat (state_at_noskip n p mat k) =
        combined_change n p mat (state_at n p mat k) := by
  refine ⟨?_, fun k => ⟨state_at_noskip_eq n p mat hp hnn k, ?_⟩⟩
  · have hag := round_loop_noskip_agree n p mat hp hnn (n - 1) 0
    have hi : (round_loop_noskip n p mat (n - 1) init_state).my_iter_num =
        (round_loop n p mat (n - 1) init_state).my_iter_num := hag.1
    have hd : ∀ r, r < p → (round_loop_noskip n p mat (n - 1) init_state).my_dist r =
        (round_loop n p mat (n - 1) init_state).my_dist r := hag.2
    apply Prod.ext
    · show (if _ then _ else _) = (if _ then _ else _)
      rw [hi, allreduce_lor_congr p _ _ (fun r hr => by rw [hd r hr])]
    · show (List.range n).map _ = (List.range n).map _
      rw [hd 0 hp]
  · rw [state_at_noskip_eq n p mat hp hnn k]
    exact combined_change_noskip_eq n p mat hp hnn k

theorem skip_is_optimisation_witness :
    (1 ≤ 2 ∧ ∀ u v, u < 3 → v < 3 → scenario2 (u * 3 + v) < INF → 0 ≤ scenario2 (u * 3 + v)) ∧
    (bellman_ford_noskip 2 3 scenario2 = bellman_ford 2 3 scenario2 ∧
    ∀ k, state_at_noskip 3 2 scenario2 k = state_at 3 2 scenario2 k ∧
      combined_change_noskip 3 2 scenario2 (state_at_noskip 3 2 scenario2 k) =
        combined_change 3 2 scenario2 (state_at 3 2 scenario2 k)) :=
  have h : ∀ u, u < 3 → ∀ v, v < 3 → scenario2 (u * 3 + v) < INF →
      0 ≤ scenario2 (u * 3 + v) := by decide
  ⟨⟨by decide, fun u v hu hv => h u hu v hv⟩,
    skip_is_optimisation 3 2 scenario2 (by decide) (fun u v hu hv => h u hu v hv)⟩

/-! ## The in-place pass against the snapshot pass -/

theorem snapshot_relax_le (n : Nat) (mat : Nat → Int) (snap : Vec) (u v : Nat)
    (s : Vec × Bool) (x : Nat) : (snapshot_relax n mat snap u v s).1 x ≤ s.1 x := by
  unfold snapshot_relax
  dsimp only
  split_ifs with h1
  · by_cases hx : x = v
    · subst hx; simp only [Function.update_same]; exact le_of_lt h1.2
    · simp only [Function.update_noteq hx]; exact le_refl _
  · exact le_refl _

theorem snapshot_relax_progress (n : Nat) (mat : Nat → Int) (snap : Vec) (u v : Nat)
    (s : Vec × Bool) (hw : mat (u * n + v) < INF) :
    (snapshot_relax n mat snap u v s).1 v ≤ add32 (snap u) (mat (u * n + v)) := by
  unfold snapshot_relax
  dsimp only
  split_ifs with h1
  · simp only [Function.update_same]; exact le_refl _
  · exact not_lt.1 (fun h2 => h1 ⟨hw, h2⟩)

theorem snapshot_relax_flag_false (n : Nat) (mat : Nat → Int) (snap : Vec) (u v : Nat)
    (s : Vec × Bool) (h : (snapshot_relax n mat snap u v s).2 = false) :
    snapshot_relax n mat snap u v s = s := by
  unfold snapshot_relax at h ⊢
  dsimp only at h ⊢
  split_ifs at h ⊢
  rfl

theorem snapshot_relax_ge (n : Nat) (mat : Nat → Int) (snap low : Vec) (u v : Nat)
    (s : Vec × Bool) (hlow : ∀ x, low x ≤ s.1 x)
    (hv : mat (u * n + v) < INF → low v ≤ add32 (snap u) (mat (u * n + v))) (x : Nat) :
    low x ≤ (snapshot_relax n mat snap u v s).1 x := by
  unfold snapshot_relax
  dsimp only
  split_ifs with h1
  · by_cases hx : x = v
    · subst hx; simp only [Function.update_same]; exact hv h1.1
    · simp only [Function.update_noteq hx]; exact hlow x
  · exact hlow x

theorem snapshot_row_flag_false (n : Nat) (mat : Nat → Int) (b e : Nat) (snap : Vec)
    (u : Nat) (s : Vec × Bool) (h : (snapshot_row n mat b e snap u s).2 = false) :
    snapshot_row n mat b e snap u s = s := by
  unfold snapshot_row at h ⊢
  split_ifs at h ⊢ with h1
  · refine foldl_inv (fun s1 => s1.2 = false → s1 = s) _ _ s (fun _ => rfl)
      (fun s1 v _ hs1 hf => ?_) h
    have h2 := snapshot_relax_flag_false n mat snap u v s1 hf
    rw [h2] at hf ⊢
    exact hs1 hf
  · rfl

theorem snapshot_row_le (n : Nat) (mat : Nat → Int) (b e : Nat) (snap : Vec) (u : Nat)
    (s : Vec × Bool) (x : Nat) : (snapshot_row n mat b e snap u s).1 x ≤ s.1 x := by
  unfold snapshot_row
  split_ifs with h
  · exact foldl_inv (fun s1 => s1.1 x ≤ s.1 x) _ _ s (le_refl _)
      (fun s1 v _ hs1 => le_trans (snapshot_relax_le n mat snap u v s1 x) hs1)
  · exact le_refl _

theorem snapshot_row_progress (n : Nat) (mat : Nat → Int) (b e : Nat) (snap : Vec) (u : Nat)
    (s : Vec × Bool) (hu : snap u < INF) (v : Nat) (h1 : b ≤ v) (h2 : v < e)
    (hw : mat (u * n + v) < INF) :
    (snapshot_row n mat b e snap u s).1 v ≤ add32 (snap u) (mat (u * n + v)) := by
  unfold snapshot_row
  rw [if_pos hu]
  exact foldl_each (fun _ => True)
    (fun v s1 => mat (u * n + v) < INF → s1.1 v ≤ add32 (snap u) (mat (u * n + v))) _ _ s
    trivial (fun _ _ _ _ => trivial)
    (fun s1 v _ _ hw1 => snapshot_relax_progress n mat snap u v s1 hw1)
    (fun s1 v y _ _ hR hw1 => le_trans (snapshot_relax_le n mat snap u v s1 y) (hR hw1))
    v (owned_mem h1 h2) hw

theorem snapshot_pass_flag_false (n : Nat) (mat : Nat → Int) (b e : Nat) (d : Vec)
    (h : (snapshot_pass n mat b e d).2 = false) : (snapshot_pass n mat b e d).1 = d := by
  have key := foldl_inv (fun s1 => s1.2 = false → s1 = (d, false))
    (fun s u => snapshot_row n mat b e d u s) (List.range n) (d, false) (fun _ => rfl)
    (fun s1 u _ hs1 hf => by
      have h2 := snapshot_row_flag_false n mat b e d u s1 hf
      dsimp only at hf ⊢
      rw [h2] at hf ⊢
      exact hs1 hf) h
  exact congrArg Prod.fst key

theorem snapshot_pass_progress (n : Nat) (mat : Nat → Int) (b e : Nat) (d : Vec)
    (u v : Nat) (hu : u < n) (h1 : b ≤ v) (h2 : v < e) (hd : d u < INF)
    (hw : mat (u * n + v) < INF) :
    (snapshot_pass n mat b e d).1 v ≤ add32 (d u) (mat (u * n + v)) :=
  foldl_each (fun _ => True)
    (fun u s1 => d u < INF → ∀ v, b ≤ v → v < e → mat (u * n + v) < INF →
      s1.1 v ≤ add32 (d u) (mat (u * n + v)))
    (fun s u => snapshot_row n mat b e d u s) (List.range n) (d, false) trivial
    (fun _ _ _ _ => trivial)
    (fun s1 u _ _ hd1 v hv1 hv2 hw1 => snapshot_row_progress n mat b e d u s1 hd1 v hv1 hv2 hw1)
    (fun s1 u _ _ _ hR hd1 v hv1 hv2 hw1 =>
      le_trans (snapshot_row_le n mat b e d u s1 v) (hR hd1 v hv1 hv2 hw1))
    u (List.mem_range.2 hu) hd v h1 h2 hw

theorem snapshot_pass_quiet (n : Nat) (mat : Nat → Int) (b e : Nat) (d : Vec)
    (h : ∀ u v, u < n → b ≤ v → v < e → d u < INF → mat (u * n + v) < INF →
      ¬add32 (d u) (mat (u * n + v)) < d v) :
    snapshot_pass n mat b e d = (d, false) := by
  refine foldl_inv (fun s1 => s1 = (d, false)) _ (List.range n) (d, false) rfl
    (fun s1 u hu hs1 => ?_)
  show snapshot_row n mat b e d u s1 = (d, false)
  rw [hs1]
  unfold snapshot_row
  split_ifs with h0
  · refine foldl_inv (fun s2 => s2 = (d, false)) _ _ (d, false) rfl (fun s2 v hv hs2 => ?_)
    show snapshot_relax n mat d u v s2 = (d, false)
    rw [hs2]
    unfold snapshot_relax
    dsimp only
    split_ifs with h1
    · exact absurd h1.2
        (h u v (List.mem_range.1 hu) (mem_owned hv).1 (mem_owned hv).2 h0 h1.1)
    · rfl
  · rfl

theorem snapshot_pass_flag_iff (n : Nat) (mat : Nat → Int) (b e : Nat) (d : Vec) :
    (snapshot_pass n mat b e d).2 = true ↔
      ∃ u v, u < n ∧ b ≤ v ∧ v < e ∧ d u < INF ∧ mat (u * n + v) < INF ∧
        add32 (d u) (mat (u * n + v)) < d v := by
  constructor
  · intro hflag
    by_contra hno
    have hq := snapshot_pass_quiet n mat b e d (fun u v hu h1 h2 hd hw hlt =>
      hno ⟨u, v, hu, h1, h2, hd, hw, hlt⟩)
    rw [hq] at hflag
    exact Bool.false_ne_true hflag
  · rintro ⟨u, v, hu, h1, h2, hd, hw, hlt⟩
    by_contra hflag
    have hf : (snapshot_pass n mat b e d).2 = false := by simpa using hflag
    have hsame := snapshot_pass_flag_false n mat b e d hf
    have := snapshot_pass_progress n mat b e d u v hu h1 h2 hd hw
    rw [hsame] at this
    exact absurd hlt (not_lt.2 this)

theorem flags_agree (n : Nat) (mat : Nat → Int) (b e : Nat) (d : Vec)
    (hI : AtMostINF n d) :
    (relax_pass n mat b e d).2 = (snapshot_pass n mat b e d).2 := by
  rw [Bool.eq_iff_iff, relax_pass_flag_iff n mat b e d, snapshot_pass_flag_iff n mat b e d]
  constructor
  · rintro ⟨u, v, hu, h1, h2, hd, hw, hlt⟩
    exact ⟨u, v, hu, h1, h2, lt_of_le_of_ne (hI u hu) hd, hw, hlt⟩
  · rintro ⟨u, v, hu, h1, h2, hd, hw, hlt⟩
    exact ⟨u, v, hu, h1, h2, ne_of_lt hd, hw, hlt⟩

theorem in_place_le_snapshot (n : Nat) (mat : Nat → Int) (b e : Nat) (d : Vec) (B : Int)
    (hB : 0 ≤ B)
    (hlo : ∀ u v, u < n → v < e → mat (u * n + v) < INF → -B ≤ mat (u * n + v))
    (hq : LowQ n B (n * (e - b)) d) (x : Nat) :
    (relax_pass n mat b e d).1 x ≤ (snapshot_pass n mat b e d).1 x := by
  have hQ : StepFamily n e mat (LowQ n B) := lowQ_family hB hlo
  have hE : ExactFamily n e mat (LowQ n B) := lowQ_exact hB hlo
  have fam := relax_pass_family hQ b e d (le_refl e) 0 (by rw [Nat.zero_add]; exact hq)
  have edge : ∀ u v, u < n → b ≤ v → v < e → d u < INF → mat (u * n + v) < INF →
      (relax_pass n mat b e d).1 v ≤ add32 (d u) (mat (u * n + v)) := by
    intro u v hu h1 h2 hd hw
    have hpos : 1 ≤ n * (e - b) := Nat.mul_pos (by omega) (by omega)
    have hq1 : LowQ n B (n * (e - b) - 1 + 1) d := by
      rw [Nat.sub_add_cancel hpos]; exact hq
    rw [hE _ d u v hq1 hu h2 hd hw]
    exact fam.2 hE u v hu h1 h2 hd hw
  have key := foldl_inv (fun s1 => ∀ y, (relax_pass n mat b e d).1 y ≤ s1.1 y)
    (fun s u => snapshot_row n mat b e d u s) (List.range n) (d, false)
    (fun y => relax_pass_le n mat b e d y)
    (fun s1 u hu hs1 => by
      show ∀ y, (relax_pass n mat b e d).1 y ≤ (snapshot_row n mat b e d u s1).1 y
      unfold snapshot_row
      split_ifs with h0
      · exact foldl_inv (fun s2 => ∀ y, (relax_pass n mat b e d).1 y ≤ s2.1 y)
          (fun s v => snapshot_relax n mat d u v s) _ s1 hs1
          (fun s2 v hv hs2 y => snapshot_relax_ge n mat d _ u v s2 hs2
            (fun hw => edge u v (List.mem_range.1 hu)
              (mem_owned hv).1 (mem_owned hv).2 h0 hw) y)
      · exact hs1)
  exact key x

/-- C15 fails on the code: on `no_cycle` with the array `[0, 999999, INF]` and the range
`[0, 3)` the detection pass raises its flag (source 2 has distance `INF`, and
`INF - 2 < 999999`), while one more relaxation pass over the same array and range reports
no change. -/
theorem detection_differs_from_relaxation :
    detect_pass 3 no_cycle 0 3 no_cycle_dist = true ∧
    (relax_pass 3 no_cycle 0 3 no_cycle_dist).2 = false ∧
    (List.range 3).map ((round_loop 3 1 no_cycle (3 - 1) init_state).my_dist 0) =
      (List.range 3).map no_cycle_dist :=
  ⟨by decide, by decide, by decide⟩

/-- C16 as stated fails: on `deep_edge` (edges `1 → 2` of weight -2 and `2 → 3` of weight
-2147483647) with the array `[0, 0, -1, INF]`, all entries at most `INF`, and the range
`[0, 4)`, the in-place pass first lowers `dist[2]` to -2, and its 32-bit sum
`-2 + -2147483647` wraps to 2147483647, so `dist[3]` stays `INF`; the pass reading the
snapshot forms `-1 + -2147483647 = -2147483648` and stores it. -/
theorem in_place_above_snapshot :
    (∀ x, x < 4 → deep_dist x ≤ INF) ∧
    (relax_pass 4 deep_edge 0 4 deep_dist).1 3 = 1000000 ∧
    (snapshot_pass 4 deep_edge 0 4 deep_dist).1 3 = -2147483648 ∧
    ¬(relax_pass 4 deep_edge 0 4 deep_dist).1 3 ≤
      (snapshot_pass 4 deep_edge 0 4 deep_dist).1 3 :=
  ⟨by decide, by decide, by decide, by decide⟩

/-- C16 amended: for a bound `B ≥ 0`, a matrix whose edge weights are at least `-B`, an
owned range `[my_begin, my_end)` and an array whose entries are at most `INF` and at
least `INT_MIN + n * (my_end - my_begin) * B` (no 32-bit sum of the pass overflows), the
in-place pass of `bellman_ford` yields at every vertex a value at most that of the pass
reading the snapshot, and it reports a change exactly when the snapshot pass does. -/
theorem in_place_at_most_snapshot (n : Nat) (mat : Nat → Int) (my_begin my_end : Nat)
    (d : Vec) (B : Int) (hI : ∀ x, x < n → d x ≤ INF) (hB : 0 ≤ B)
    (hw : ∀ u, u < n → ∀ v, v < my_end → mat (u * n + v) < INF → -B ≤ mat (u * n + v))
    (hlow : ∀ x, x < n → INT_MIN + ((n * (my_end - my_begin) : Nat) : Int) * B ≤ d x) :
    (∀ v, (relax_pass n mat my_begin my_end d).1 v ≤
      (snapshot_pass n mat my_begin my_end d).1 v) ∧
    (relax_pass n mat my_begin my_end d).2 = (snapshot_pass n mat my_begin my_end d).2 :=
  ⟨fun v => in_place_le_snapshot n mat my_begin my_end d B hB
      (fun u v hu hv h => hw u hu v hv h) ⟨hI, hlow⟩ v,
    flags_agree n mat my_begin my_end d hI⟩

theorem in_place_at_most_snapshot_witness :
    ((∀ x, x < 3 → init_dist x ≤ INF) ∧ (0 : Int) ≤ 5 ∧
      (∀ u, u < 3 → ∀ v, v < 3 → scenario2 (u * 3 + v) < INF →
        -(5 : Int) ≤ scenario2 (u * 3 + v)) ∧
      (∀ x, x < 3 → INT_MIN + ((3 * (3 - 0) : Nat) : Int) * 5 ≤ init_dist x)) ∧
    (∀ v, (relax_pass 3 scenario2 0 3 init_dist).1 v ≤
      (snapshot_pass 3 scenario2 0 3 init_dist).1 v) ∧
    (relax_pass 3 scenario2 0 3 init_dist).2 = (snapshot_pass 3 scenario2 0 3 init_dist).2 ∧
    (relax_pass 3 scenario2 0 3 init_dist).1 2 = 2 ∧
    (snapshot_pass 3 scenario2 0 3 init_dist).1 2 = 5 :=
  ⟨⟨by decide, by decide, by decide, by decide⟩,
    (in_place_at_most_snapshot 3 scenario2 0 3 init_dist 5 (by decide) (by decide) (by decide)
      (by decide)).1,
    (in_place_at_most_snapshot 3 scenario2 0 3 init_dist 5 (by decide) (by decide) (by decide)
      (by decide)).2, by decide, by decide⟩

end MpiBf
